import Mathlib

/-!
Verification of the win-detection engine (`GameCoreLogic`) of the slots-game
repository. The engine takes a 4x6 grid of optional symbol labels and returns
three collections of winning coordinate paths: straight (full rows/columns),
diagonal (full-height slope ±1 runs), and adjacency (top-to-bottom connecting
paths that are not straight lines), deduplicated by coordinate multiset.

Cells are `Option String`: `none` models a JS `undefined` cell. A JS empty
string `""` is falsy as well; the truthiness checks of the source are embedded
explicitly (`≠ ""` next to the `Option` match).
-/

/-- Grid coordinate: `r` = row (0 = top), `c` = column (0 = left). -/
structure GridCoord where
  r : Nat
  c : Nat
deriving DecidableEq, Repr

/-- A winning path: ordered list of coordinates. -/
abbrev WinPath := List GridCoord

/-- A cell: a symbol label, or `none` for an absent symbol. -/
abbrev Cell := Option String

/-- A grid: list of rows, each a list of cells. -/
abbrev Grid := List (List Cell)

/-- `GameConstants.REEL_COUNT` : number of rows. -/
def REEL_COUNT : Nat := 4

/-- `GameConstants.SYMBOLS_PER_REEL` : number of columns. -/
def SYMBOLS_PER_REEL : Nat := 6

/-- Result of `GameCoreLogic.computeWins`. -/
structure WinsResult where
  straight : List WinPath
  diagonal : List WinPath
  adjacency : List WinPath
deriving DecidableEq, Repr

/-- Total cell read `grid[r][c]` : out-of-range reads yield `none`
(the checked variant `getCellE` below models the JS throw on a missing row). -/
def getCell (g : Grid) (r c : Nat) : Option String :=
  match g.get? r with
  | none => none
  | some row => (row.get? c).getD none

/-- `GameCoreLogic.isValidGrid` : 4 rows, each of length 6. -/
def isValidGrid (g : Grid) : Bool :=
  g.length == REEL_COUNT && g.all fun row => row.length == SYMBOLS_PER_REEL

/-- `GameCoreLogic.findHorizontalWins` : for each row, if the first cell is a
truthy symbol and every cell of the row equals it, emit the full-row path. -/
def findHorizontalWins (g : Grid) : List WinPath :=
  (List.range REEL_COUNT).filterMap fun r =>
    match getCell g r 0 with
    | none => none
    | some firstSymbol =>
      if firstSymbol ≠ "" ∧ (g.getD r []).all (fun cell => cell == some firstSymbol) then
        some ((List.range SYMBOLS_PER_REEL).map fun c => ⟨r, c⟩)
      else none

/-- `GameCoreLogic.findVerticalWins` : for each column, if the top cell is a
truthy symbol and rows 1..3 of the column equal it, emit the full-column path. -/
def findVerticalWins (g : Grid) : List WinPath :=
  (List.range SYMBOLS_PER_REEL).filterMap fun c =>
    match getCell g 0 c with
    | none => none
    | some firstSymbol =>
      if firstSymbol ≠ "" ∧ (List.range' 1 (REEL_COUNT - 1)).all
          (fun r => getCell g r c == some firstSymbol) then
        some ((List.range REEL_COUNT).map fun r => ⟨r, c⟩)
      else none

/-- `GameCoreLogic.findDiagonalWins` : slope +1 runs for start columns 0..2
(ascending), then slope −1 runs for start columns 5 down to 3. -/
def findDiagonalWins (g : Grid) : List WinPath :=
  let plus := (List.range (SYMBOLS_PER_REEL - REEL_COUNT + 1)).filterMap fun c =>
    match getCell g 0 c with
    | none => none
    | some firstSymbol =>
      if firstSymbol ≠ "" ∧ (List.range' 1 (REEL_COUNT - 1)).all
          (fun r => getCell g r (c + r) == some firstSymbol) then
        some ((List.range REEL_COUNT).map fun r => (⟨r, c + r⟩ : GridCoord))
      else none
  let minus := ((List.range' (REEL_COUNT - 1) (SYMBOLS_PER_REEL - REEL_COUNT + 1)).reverse).filterMap fun c =>
    match getCell g 0 c with
    | none => none
    | some firstSymbol =>
      if firstSymbol ≠ "" ∧ (List.range' 1 (REEL_COUNT - 1)).all
          (fun r => getCell g r (c - r) == some firstSymbol) then
        some ((List.range REEL_COUNT).map fun r => (⟨r, c - r⟩ : GridCoord))
      else none
  plus ++ minus

/-- One BFS queue entry: current coordinate and the accumulated path. -/
abbrev BfsEntry := GridCoord × WinPath

/-- One candidate expansion step of the BFS (one `dc` of the inner `for` loop):
push `(coord.r+1, coord.c+dc)` if the column is in `[0, 6)`, the cell is not
yet visited in this run, and it holds the run's symbol. -/
def tryPush (g : Grid) (symbol : String) (coord : GridCoord) (path : WinPath)
    (st : List BfsEntry × Finset GridCoord) (dc : Int) : List BfsEntry × Finset GridCoord :=
  let nextR : Nat := coord.r + 1
  let nextC : Int := (coord.c : Int) + dc
  if 0 ≤ nextC ∧ nextC < (SYMBOLS_PER_REEL : Int) ∧
      (⟨nextR, nextC.toNat⟩ : GridCoord) ∉ st.2 ∧
      getCell g nextR nextC.toNat = some symbol then
    (st.1 ++ [(⟨nextR, nextC.toNat⟩, path ++ [⟨nextR, nextC.toNat⟩])],
      insert (⟨nextR, nextC.toNat⟩ : GridCoord) st.2)
  else st

/-- The full neighbor expansion: `for (const dc of [-1, 0, 1])`. -/
def expandEntry (g : Grid) (symbol : String) (coord : GridCoord) (path : WinPath)
    (st : List BfsEntry × Finset GridCoord) : List BfsEntry × Finset GridCoord :=
  tryPush g symbol coord path (tryPush g symbol coord path (tryPush g symbol coord path st (-1)) 0) 1

/-- The BFS `while (queue.length > 0)` loop, with explicit fuel. A completed
entry (bottom row) records its path and is not extended; otherwise the entry
is expanded. `adjacencyFuel` below is proven sufficient, so the `0` case is
never reached from `findAdjacencyWins` (theorem `bfsLoop_fuel_irrelevant`). -/
def bfsLoop (g : Grid) (symbol : String) :
    Nat → List BfsEntry → Finset GridCoord → List WinPath
  | 0, _, _ => []
  | _ + 1, [], _ => []
  | fuel + 1, (coord, path) :: rest, visited =>
    if coord.r = REEL_COUNT - 1 then
      path :: bfsLoop g symbol fuel rest visited
    else
      let st := expandEntry g symbol coord path (rest, visited)
      bfsLoop g symbol fuel st.1 st.2

/-- All coordinates a BFS run can ever visit on grid `g`. -/
def gridUniverse (g : Grid) : Finset GridCoord :=
  ((Finset.range g.length) ×ˢ (Finset.range SYMBOLS_PER_REEL)).image
    fun rc => ⟨rc.1, rc.2⟩

/-- Loop measure: queue length plus three tokens per not-yet-visited cell. -/
def bfsMeasure (g : Grid) (queue : List BfsEntry) (visited : Finset GridCoord) : Nat :=
  queue.length + 3 * ((gridUniverse g) \ visited).card

/-- Fuel sufficient for any single BFS run on `g`. -/
def adjacencyFuel (g : Grid) : Nat :=
  1 + 3 * (gridUniverse g).card

/-- One BFS run of `findAdjacencyWins`: start at `(0, c)` with the start cell
already visited. -/
def runAdjacency (g : Grid) (symbol : String) (c : Nat) : List WinPath :=
  bfsLoop g symbol (adjacencyFuel g) [(⟨0, c⟩, [⟨0, c⟩])] {⟨0, c⟩}

/-- Worker for `dedupFirst`, carrying the set of already-seen names. -/
def dedupFirstAux : List String → List String → List String
  | [], _ => []
  | s :: rest, seen =>
    if s ∈ seen then dedupFirstAux rest seen
    else s :: dedupFirstAux rest (s :: seen)

/-- First-occurrence deduplication of a list of symbol names: the iteration
order of a JS `Set` is insertion order. -/
def dedupFirst (l : List String) : List String := dedupFirstAux l []

/-- `new Set(grid.flat().filter(Boolean))` : distinct truthy symbols in
first-occurrence order of the flattened grid. -/
def uniqueSymbols (g : Grid) : List String :=
  dedupFirst ((g.flatten.filterMap id).filter fun s => s ≠ "")

/-- `GameCoreLogic.findAdjacencyWins` : for each distinct symbol and each top
row cell holding it, run a BFS collecting all recorded bottom-row paths. -/
def findAdjacencyWins (g : Grid) : List WinPath :=
  (uniqueSymbols g).flatMap fun symbol =>
    (List.range SYMBOLS_PER_REEL).flatMap fun c =>
      if getCell g 0 c = some symbol then runAdjacency g symbol c else []

/-- `GameCoreLogic.isStraightOrDiagonalPath` : true if the path has ≤ 1 point
or, for every index i ≥ 2, the row delta is 1 and the column delta equals the
first column delta. -/
def isStraightOrDiagonalPath (path : WinPath) : Bool :=
  if path.length ≤ 1 then true
  else
    let deltaC : Int := ((path.getD 1 ⟨0, 0⟩).c : Int) - ((path.getD 0 ⟨0, 0⟩).c : Int)
    (List.range' 2 (path.length - 2)).all fun i =>
      (((path.getD i ⟨0, 0⟩).r : Int) - ((path.getD (i - 1) ⟨0, 0⟩).r : Int) == 1) &&
      (((path.getD i ⟨0, 0⟩).c : Int) - ((path.getD (i - 1) ⟨0, 0⟩).c : Int) == deltaC)

/-- Order-independent key of a path: its coordinate multiset. The source keys
by the sorted-coordinate string, which identifies exactly the multiset. -/
def pathKey (p : WinPath) : Multiset GridCoord := (p : Multiset GridCoord)

/-- Worker of `dedupePaths`, carrying the `seen` key set. -/
def dedupeAux : List WinPath → Finset (Multiset GridCoord) → List WinPath
  | [], _ => []
  | p :: ps, seen =>
    if pathKey p ∈ seen then dedupeAux ps seen
    else p :: dedupeAux ps (insert (pathKey p) seen)

/-- `GameCoreLogic.dedupePaths` : drop paths whose coordinate multiset was
already seen, keeping the first occurrence in order. -/
def dedupePaths (paths : List WinPath) : List WinPath :=
  dedupeAux paths ∅

/-- `GameCoreLogic.computeWins`. -/
def computeWins (g : Grid) : WinsResult :=
  if isValidGrid g then
    let horizontalWins := findHorizontalWins g
    let verticalWins := findVerticalWins g
    let diagonalWins := findDiagonalWins g
    let adjacencyWins := findAdjacencyWins g
    let straight := horizontalWins ++ verticalWins
    let adjacencyFiltered := adjacencyWins.filter fun p => !(isStraightOrDiagonalPath p)
    { straight := dedupePaths straight
      diagonal := dedupePaths diagonalWins
      adjacency := dedupePaths adjacencyFiltered }
  else
    { straight := [], diagonal := [], adjacency := [] }

/-- Result record of `checkWin`. -/
structure CheckWinResult where
  winningPaths : List WinPath
  wins : WinsResult
deriving DecidableEq, Repr

/-- `GameCoreLogic.checkWin` : all categories concatenated, plus the raw result. -/
def checkWin (g : Grid) : CheckWinResult :=
  let wins := computeWins g
  { winningPaths := wins.straight ++ wins.diagonal ++ wins.adjacency, wins := wins }

/-! ## State-passing embedding of the top-level calls

The source procedures only read the grid; the state-passing embedding threads
the grid through every statement of `computeWins` and returns it alongside the
result, so that the frame property (the grid is never mutated) is a statement
about a definition rather than a convention. -/

/-- State-passing `computeWins`: each statement of the source consumes and
returns the grid state; no statement of the source writes to the grid. -/
def computeWinsSt (g0 : Grid) : WinsResult × Grid :=
  if isValidGrid g0 then
    let s1 : List WinPath × Grid := (findHorizontalWins g0, g0)
    let s2 : List WinPath × Grid := (findVerticalWins s1.2, s1.2)
    let s3 : List WinPath × Grid := (findDiagonalWins s2.2, s2.2)
    let s4 : List WinPath × Grid := (findAdjacencyWins s3.2, s3.2)
    let straight := s1.1 ++ s2.1
    let adjacencyFiltered := s4.1.filter fun p => !(isStraightOrDiagonalPath p)
    ({ straight := dedupePaths straight
       diagonal := dedupePaths s3.1
       adjacency := dedupePaths adjacencyFiltered }, s4.2)
  else
    ({ straight := [], diagonal := [], adjacency := [] }, g0)

/-- State-passing `checkWin`. -/
def checkWinSt (g0 : Grid) : CheckWinResult × Grid :=
  let s1 := computeWinsSt g0
  ({ winningPaths := s1.1.straight ++ s1.1.diagonal ++ s1.1.adjacency, wins := s1.1 }, s1.2)

/-! ## Specification-side vocabulary (phrased from the spec, §3-§4.6) -/

/-- A cell holding a non-empty symbol (neither absent nor the empty label). -/
def isFilledCell (x : Option String) : Prop := x ≠ none ∧ x ≠ some ""

instance (x : Option String) : Decidable (isFilledCell x) := by
  unfold isFilledCell; infer_instance

/-- Spec §4.2: every cell of row `r` holds the same non-empty symbol. -/
def specRowWin (g : Grid) (r : Nat) : Prop :=
  (∀ c < SYMBOLS_PER_REEL, isFilledCell (getCell g r c)) ∧
  (∀ c₁ < SYMBOLS_PER_REEL, ∀ c₂ < SYMBOLS_PER_REEL, getCell g r c₁ = getCell g r c₂)

/-- Spec §4.3: every cell of column `c` holds the same non-empty symbol. -/
def specColWin (g : Grid) (c : Nat) : Prop :=
  (∀ r < REEL_COUNT, isFilledCell (getCell g r c)) ∧
  (∀ r₁ < REEL_COUNT, ∀ r₂ < REEL_COUNT, getCell g r₁ c = getCell g r₂ c)

/-- Spec §4.4: the slope +1 diagonal starting at `(0, c)` shares one non-empty
symbol. -/
def specDiagPlusWin (g : Grid) (c : Nat) : Prop :=
  (∀ r < REEL_COUNT, isFilledCell (getCell g r (c + r))) ∧
  (∀ r₁ < REEL_COUNT, ∀ r₂ < REEL_COUNT, getCell g r₁ (c + r₁) = getCell g r₂ (c + r₂))

/-- Spec §4.4: the slope −1 diagonal starting at `(0, c)` shares one non-empty
symbol. -/
def specDiagMinusWin (g : Grid) (c : Nat) : Prop :=
  (∀ r < REEL_COUNT, isFilledCell (getCell g r (c - r))) ∧
  (∀ r₁ < REEL_COUNT, ∀ r₂ < REEL_COUNT, getCell g r₁ (c - r₁) = getCell g r₂ (c - r₂))

/-- The full-row path `[(r,0), ..., (r,5)]`. -/
def rowPath (r : Nat) : WinPath := (List.range SYMBOLS_PER_REEL).map fun c => ⟨r, c⟩

/-- The full-column path `[(0,c), ..., (3,c)]`. -/
def colPath (c : Nat) : WinPath := (List.range REEL_COUNT).map fun r => ⟨r, c⟩

/-- The slope +1 diagonal path starting at `(0, c)`. -/
def diagPlusPath (c : Nat) : WinPath := (List.range REEL_COUNT).map fun r => ⟨r, c + r⟩

/-- The slope −1 diagonal path starting at `(0, c)`. -/
def diagMinusPath (c : Nat) : WinPath := (List.range REEL_COUNT).map fun r => ⟨r, c - r⟩

/-- Column delta of the step from point `i` to point `i+1`. -/
def stepDelta (p : WinPath) (i : Nat) : Int :=
  ((p.getD (i + 1) ⟨0, 0⟩).c : Int) - ((p.getD i ⟨0, 0⟩).c : Int)

/-- Spec §4.6: a path with at most one point, or whose column-delta between
consecutive points is the same constant for every consecutive pair. -/
def constantColDelta (p : WinPath) : Prop :=
  p.length ≤ 1 ∨ ∀ i < p.length - 1, stepDelta p i = stepDelta p 0

instance (p : WinPath) : Decidable (constantColDelta p) := by
  unfold constantColDelta; infer_instance

/-- Spec §4.5: a connecting path for symbol `s`: starts in row 0, ends in row
3, moves exactly one row down per step with column change in {-1, 0, 1}
staying inside [0, 5], and every cell holds the shared non-empty symbol `s`. -/
def specConnectingPath (g : Grid) (s : String) (p : WinPath) : Prop :=
  s ≠ "" ∧ p ≠ [] ∧
  (p.getD 0 ⟨0, 0⟩).r = 0 ∧
  (p.getD (p.length - 1) ⟨0, 0⟩).r = REEL_COUNT - 1 ∧
  (∀ i < p.length - 1,
    (p.getD (i + 1) ⟨0, 0⟩).r = (p.getD i ⟨0, 0⟩).r + 1 ∧ stepDelta p i ∈ ([-1, 0, 1] : List Int)) ∧
  (∀ x ∈ p, x.c < SYMBOLS_PER_REEL ∧ getCell g x.r x.c = some s)

instance (g : Grid) (s : String) (p : WinPath) : Decidable (specConnectingPath g s p) := by
  unfold specConnectingPath; infer_instance

instance (g : Grid) (r : Nat) : Decidable (specRowWin g r) := by
  unfold specRowWin; infer_instance

instance (g : Grid) (c : Nat) : Decidable (specColWin g c) := by
  unfold specColWin; infer_instance

instance (g : Grid) (c : Nat) : Decidable (specDiagPlusWin g c) := by
  unfold specDiagPlusWin; infer_instance

instance (g : Grid) (c : Nat) : Decidable (specDiagMinusWin g c) := by
  unfold specDiagMinusWin; infer_instance

/-- A concrete valid grid with exactly one full matching row. -/
def witnessGridC3 : Grid :=
  [[some "A", some "A", some "A", some "A", some "A", some "A"],
   [some "B", some "C", some "B", some "C", some "B", some "C"],
   [some "D", some "E", some "D", some "E", some "D", some "E"],
   [some "F", some "G", some "F", some "G", some "F", some "G"]]

/-- A concrete valid grid with exactly one slope +1 diagonal win. -/
def witnessGridC4 : Grid :=
  [[some "Q", some "b", some "c", some "d", some "e", some "f"],
   [some "g", some "Q", some "h", some "i", some "j", some "k"],
   [some "l", some "m", some "Q", some "n", some "o", some "p"],
   [some "q", some "r", some "s", some "Q", some "t", some "u"]]

/-! ## BFS: the queue-entry invariant -/

/-- Invariant of one queue entry `(coord, path)` of a run for symbol `s`
started at `start`: the path is nonempty, leads from `start` to `coord`, its
i-th cell sits in row i, all its cells are in-range and hold `s`, and all its
consecutive column deltas are in {-1, 0, 1}. -/
def entryOK (g : Grid) (s : String) (start : GridCoord) (e : BfsEntry) : Prop :=
  e.2 ≠ [] ∧ e.2.getLast? = some e.1 ∧ e.2.head? = some start ∧
  (∀ i < e.2.length, (e.2.getD i ⟨0, 0⟩).r = i) ∧
  (∀ x ∈ e.2, x.c < SYMBOLS_PER_REEL ∧ getCell g x.r x.c = some s) ∧
  (∀ i, i + 1 < e.2.length → stepDelta e.2 i ∈ ([-1, 0, 1] : List Int))

/-- Invariant of the whole BFS state: queue coordinates are pairwise distinct,
every queued coordinate is visited, and every entry satisfies `entryOK`. -/
def queueInv (g : Grid) (s : String) (start : GridCoord)
    (q : List BfsEntry) (v : Finset GridCoord) : Prop :=
  (q.map Prod.fst).Nodup ∧ (∀ e ∈ q, e.1 ∈ v) ∧ (∀ e ∈ q, entryOK g s start e)

/-- A concrete grid whose symbol-A run from column 0 records one path. -/
def witnessGridC8 : Grid :=
  [[some "A", none, none, none, none, none],
   [some "A", some "A", none, none, none, none],
   [some "A", none, none, none, none, none],
   [some "A", none, none, none, none, none]]

/-- A concrete valid grid with one zig-zag adjacency win. -/
def witnessGridC5 : Grid :=
  [[some "Z", some "B", some "C", some "D", some "E", some "F"],
   [some "G", some "Z", some "H", some "I", some "J", some "K"],
   [some "Z", some "L", some "M", some "N", some "O", some "P"],
   [some "Q", some "Z", some "R", some "S", some "T", some "U"]]

/-- A concrete valid grid exercising all three collections. -/
def witnessGridC6 : Grid :=
  [[some "Z", some "B", some "C", some "D", some "E", some "F"],
   [some "G", some "Z", some "H", some "I", some "J", some "K"],
   [some "Z", some "L", some "M", some "N", some "O", some "P"],
   [some "Q", some "Z", some "R", some "S", some "T", some "U"]]

/-! ## Claim C1: the adjacency search is not an exhaustive enumeration -/

/-- Grid for the C1 counterexample: symbol A at (0,0), (1,0), (1,1), (2,0),
(3,0). Two connecting paths exist from (0,0); the per-run visited set lets the
BFS record only the one through (1,0). -/
def cexGridC1 : Grid :=
  [[some "A", none, none, none, none, none],
   [some "A", some "A", none, none, none, none],
   [some "A", none, none, none, none, none],
   [some "A", none, none, none, none, none]]

/-- A valid connecting path of symbol A that the search never collects. -/
def cexPathC1 : WinPath := [⟨0, 0⟩, ⟨1, 1⟩, ⟨2, 0⟩, ⟨3, 0⟩]

/-- A concrete valid grid with a zig-zag adjacency result. -/
def witnessGridC1 : Grid :=
  [[some "Z", some "B", some "C", some "D", some "E", some "F"],
   [some "G", some "Z", some "H", some "I", some "J", some "K"],
   [some "Z", some "L", some "M", some "N", some "O", some "P"],
   [some "Q", some "Z", some "R", some "S", some "T", some "U"]]

/-! ## Checked embedding (models the JS throw on indexing a missing row)

`getCellE` returns `none` exactly when the source expression `grid[r][c]`
would throw (row `r` missing); a present row with an out-of-range column
yields JS `undefined`, i.e. `some none`. Each scan is re-expressed with this
checked read and short-circuiting `Option` plumbing; `computeWinsE = some ∘
computeWins` states that no read of the engine ever indexes a missing row. -/

def getCellE (g : Grid) (r c : Nat) : Option (Option String) :=
  (g.get? r).map fun row => (row.get? c).getD none

/-- Checked horizontal scan over the given row indices. -/
def horizRowsE (g : Grid) : List Nat → Option (List WinPath)
  | [] => some []
  | r :: rs =>
    (g.get? r).bind fun row =>
      (horizRowsE g rs).map fun tail =>
        match (row.get? 0).getD none with
        | none => tail
        | some firstSymbol =>
          if firstSymbol ≠ "" ∧ row.all (fun cell => cell == some firstSymbol) then
            ((List.range SYMBOLS_PER_REEL).map fun c => (⟨r, c⟩ : GridCoord)) :: tail
          else tail

def findHorizontalWinsE (g : Grid) : Option (List WinPath) :=
  horizRowsE g (List.range REEL_COUNT)

/-- Checked matching of rows 1..3 along a column schedule, stopping at the
first mismatch like the source loop's `break`. -/
def matchRowsE (g : Grid) (fs : String) (colFn : Nat → Nat) : List Nat → Option Bool
  | [] => some true
  | r :: rs =>
    (getCellE g r (colFn r)).bind fun cell =>
      if cell == some fs then matchRowsE g fs colFn rs else some false

/-- Checked check of one start column of the vertical or diagonal scan:
`f c r` is the column read in row `r`. -/
def colCheckE (g : Grid) (f : Nat → Nat → Nat) (c : Nat) : Option (Option WinPath) :=
  (getCellE g 0 c).bind fun firstCell =>
    match firstCell with
    | none => some none
    | some fs =>
      if fs = "" then some none
      else
        (matchRowsE g fs (f c) (List.range' 1 (REEL_COUNT - 1))).map fun allMatch =>
          if allMatch then
            some ((List.range REEL_COUNT).map fun r => (⟨r, f c r⟩ : GridCoord))
          else none

def colsE (g : Grid) (f : Nat → Nat → Nat) : List Nat → Option (List WinPath)
  | [] => some []
  | c :: cs =>
    (colCheckE g f c).bind fun res =>
      (colsE g f cs).map fun tail =>
        match res with
        | none => tail
        | some path => path :: tail

def findVerticalWinsE (g : Grid) : Option (List WinPath) :=
  colsE g (fun c _ => c) (List.range SYMBOLS_PER_REEL)

def findDiagonalWinsE (g : Grid) : Option (List WinPath) :=
  (colsE g (fun c r => c + r) (List.range (SYMBOLS_PER_REEL - REEL_COUNT + 1))).bind fun plus =>
    (colsE g (fun c r => c - r)
      ((List.range' (REEL_COUNT - 1) (SYMBOLS_PER_REEL - REEL_COUNT + 1)).reverse)).map
      fun minus => plus ++ minus

def tryPushE (g : Grid) (symbol : String) (coord : GridCoord) (path : WinPath)
    (st : List BfsEntry × Finset GridCoord) (dc : Int) :
    Option (List BfsEntry × Finset GridCoord) :=
  let nextR : Nat := coord.r + 1
  let nextC : Int := (coord.c : Int) + dc
  if 0 ≤ nextC ∧ nextC < (SYMBOLS_PER_REEL : Int) ∧
      (⟨nextR, nextC.toNat⟩ : GridCoord) ∉ st.2 then
    (getCellE g nextR nextC.toNat).map fun cell =>
      if cell = some symbol then
        (st.1 ++ [(⟨nextR, nextC.toNat⟩, path ++ [⟨nextR, nextC.toNat⟩])],
          insert (⟨nextR, nextC.toNat⟩ : GridCoord) st.2)
      else st
  else some st

def expandEntryE (g : Grid) (symbol : String) (coord : GridCoord) (path : WinPath)
    (st : List BfsEntry × Finset GridCoord) : Option (List BfsEntry × Finset GridCoord) :=
  (tryPushE g symbol coord path st (-1)).bind fun st1 =>
    (tryPushE g symbol coord path st1 0).bind fun st2 =>
      tryPushE g symbol coord path st2 1

def bfsLoopE (g : Grid) (symbol : String) :
    Nat → List BfsEntry → Finset GridCoord → Option (List WinPath)
  | 0, _, _ => some []
  | _ + 1, [], _ => some []
  | fuel + 1, (coord, path) :: rest, visited =>
    if coord.r = REEL_COUNT - 1 then
      (bfsLoopE g symbol fuel rest visited).map fun tail => path :: tail
    else
      (expandEntryE g symbol coord path (rest, visited)).bind fun st =>
        bfsLoopE g symbol fuel st.1 st.2

def runAdjacencyE (g : Grid) (symbol : String) (c : Nat) : Option (List WinPath) :=
  bfsLoopE g symbol (adjacencyFuel g) [(⟨0, c⟩, [⟨0, c⟩])] {⟨0, c⟩}

def adjacencyColsE (g : Grid) (symbol : String) : List Nat → Option (List WinPath)
  | [] => some []
  | c :: cs =>
    (getCellE g 0 c).bind fun cell =>
      (if cell = some symbol then runAdjacencyE g symbol c else some []).bind fun here =>
        (adjacencyColsE g symbol cs).map fun rest => here ++ rest

def adjacencySymbolsE (g : Grid) : List String → Option (List WinPath)
  | [] => some []
  | s :: ss =>
    (adjacencyColsE g s (List.range SYMBOLS_PER_REEL)).bind fun here =>
      (adjacencySymbolsE g ss).map fun rest => here ++ rest

def findAdjacencyWinsE (g : Grid) : Option (List WinPath) :=
  adjacencySymbolsE g (uniqueSymbols g)

def computeWinsE (g : Grid) : Option WinsResult :=
  if isValidGrid g then
    (findHorizontalWinsE g).bind fun horizontalWins =>
      (findVerticalWinsE g).bind fun verticalWins =>
        (findDiagonalWinsE g).bind fun diagonalWins =>
          (findAdjacencyWinsE g).map fun adjacencyWins =>
            { straight := dedupePaths (horizontalWins ++ verticalWins)
              diagonal := dedupePaths diagonalWins
              adjacency := dedupePaths (adjacencyWins.filter
                fun p => !(isStraightOrDiagonalPath p)) }
  else some { straight := [], diagonal := [], adjacency := [] }

/-- `findAdjacencyWins` with an explicit fuel parameter for every BFS run. -/
def findAdjacencyWinsFueled (g : Grid) (fuel : Nat) : List WinPath :=
  (uniqueSymbols g).flatMap fun symbol =>
    (List.range SYMBOLS_PER_REEL).flatMap fun c =>
      if getCell g 0 c = some symbol then
        bfsLoop g symbol fuel [(⟨0, c⟩, [⟨0, c⟩])] {⟨0, c⟩}
      else []

/-- A concrete ragged grid (2 rows, uneven lengths). -/
def witnessGridC10 : Grid :=
  [[some "A"], [some "B", some "C"]]

/-! ## Claim C2: malformed grids yield empty collections -/

/-- A malformed grid fails `isValidGrid`. -/
lemma isValidGrid_eq_false_of_malformed (g : Grid)
    (h : g.length ≠ REEL_COUNT ∨ ∃ row ∈ g, row.length ≠ SYMBOLS_PER_REEL) :
    isValidGrid g = false := by
  unfold isValidGrid
  rcases h with h | ⟨row, hm, hl⟩
  · simp [h]
  · rw [Bool.and_eq_false_iff]
    right
    rw [Bool.eq_false_iff]
    intro hall
    rw [List.all_eq_true] at hall
    exact hl (by simpa using hall row hm)

/-- Claim C2: for every input grid whose row count is not 4 or in which some
row's length is not 6, `computeWins` returns empty collections for all three
categories (and, being a total Lean function, does not throw). -/
theorem computeWins_invalid_empty (g : Grid)
    (h : g.length ≠ REEL_COUNT ∨ ∃ row ∈ g, row.length ≠ SYMBOLS_PER_REEL) :
    computeWins g = { straight := [], diagonal := [], adjacency := [] } := by
  unfold computeWins
  rw [isValidGrid_eq_false_of_malformed g h]
  rfl

theorem computeWins_invalid_empty_witness :
    (([[]] : Grid).length ≠ REEL_COUNT ∨ ∃ row ∈ ([[]] : Grid), row.length ≠ SYMBOLS_PER_REEL) ∧
    computeWins [[]] = { straight := [], diagonal := [], adjacency := [] } :=
  ⟨Or.inl (by decide), computeWins_invalid_empty [[]] (Or.inl (by decide))⟩

/-! ## Claim C7: checkWin concatenates the three collections -/

/-- Claim C7: for every grid (valid or not), `checkWin g` returns exactly the
concatenation straight ++ diagonal ++ adjacency of `computeWins g`, with no
further filtering, so its length is the sum of the three lengths. -/
theorem checkWin_concat (g : Grid) :
    (checkWin g).wins = computeWins g ∧
    (checkWin g).winningPaths =
      (computeWins g).straight ++ (computeWins g).diagonal ++ (computeWins g).adjacency ∧
    (checkWin g).winningPaths.length =
      (computeWins g).straight.length + (computeWins g).diagonal.length +
        (computeWins g).adjacency.length := by
  refine ⟨rfl, rfl, ?_⟩
  simp [checkWin, Nat.add_assoc]

/-! ## Claim C9: the engine never mutates the grid -/

/-- Claim C9: in the state-passing embedding that threads the grid through
every statement, `computeWins` and `checkWin` return the grid state unchanged
(the source contains no write to the grid), and compute the same results as
the pure functions. -/
theorem computeWins_frame (g : Grid) :
    (computeWinsSt g).2 = g ∧ (computeWinsSt g).1 = computeWins g ∧
    (checkWinSt g).2 = g ∧ (checkWinSt g).1 = checkWin g := by
  by_cases h : isValidGrid g <;>
    simp [checkWinSt, computeWinsSt, checkWin, computeWins, h]

/-! ## Lemmas about deduplication -/

/-- `dedupeAux` yields a sublist of the input. -/
lemma dedupeAux_sublist : ∀ (l : List WinPath) (seen : Finset (Multiset GridCoord)),
    (dedupeAux l seen).Sublist l
  | [], _ => List.Sublist.refl _
  | p :: ps, seen => by
    unfold dedupeAux
    by_cases h : pathKey p ∈ seen
    · simp only [h, if_true]
      exact (dedupeAux_sublist ps seen).cons p
    · simp only [h, if_false]
      exact (dedupeAux_sublist ps (insert (pathKey p) seen)).cons₂ p

/-- Every output of `dedupeAux` has a key outside `seen`. -/
lemma dedupeAux_key_not_seen : ∀ (l : List WinPath) (seen : Finset (Multiset GridCoord)),
    ∀ q ∈ dedupeAux l seen, pathKey q ∉ seen
  | [], _ => by simp [dedupeAux]
  | p :: ps, seen => by
    unfold dedupeAux
    by_cases h : pathKey p ∈ seen
    · simp only [h, if_true]
      exact dedupeAux_key_not_seen ps seen
    · simp only [h, if_false]
      intro q hq
      rcases List.mem_cons.mp hq with rfl | hq
      · exact h
      · have := dedupeAux_key_not_seen ps (insert (pathKey p) seen) q hq
        intro hs
        exact this (Finset.mem_insert_of_mem hs)

/-- The outputs of `dedupeAux` have pairwise distinct keys. -/
lemma dedupeAux_keys_nodup : ∀ (l : List WinPath) (seen : Finset (Multiset GridCoord)),
    ((dedupeAux l seen).map pathKey).Nodup
  | [], _ => by simp [dedupeAux]
  | p :: ps, seen => by
    unfold dedupeAux
    by_cases h : pathKey p ∈ seen
    · simp only [h, if_true]
      exact dedupeAux_keys_nodup ps seen
    · simp only [h, if_false, List.map_cons, List.nodup_cons]
      refine ⟨?_, dedupeAux_keys_nodup ps (insert (pathKey p) seen)⟩
      intro hmem
      rcases List.mem_map.mp hmem with ⟨q, hq, hkey⟩
      exact dedupeAux_key_not_seen ps (insert (pathKey p) seen) q hq
        (hkey ▸ Finset.mem_insert_self _ _)

/-- If the keys of the input are already pairwise distinct and outside `seen`,
`dedupeAux` is the identity. -/
lemma dedupeAux_eq_self : ∀ (l : List WinPath) (seen : Finset (Multiset GridCoord)),
    (l.map pathKey).Nodup → (∀ p ∈ l, pathKey p ∉ seen) → dedupeAux l seen = l
  | [], _, _, _ => rfl
  | p :: ps, seen, hnd, hout => by
    unfold dedupeAux
    have hp : pathKey p ∉ seen := hout p (List.mem_cons_self _ _)
    simp only [hp, if_false]
    congr 1
    rw [List.map_cons, List.nodup_cons] at hnd
    obtain ⟨hph, hnd'⟩ := hnd
    refine dedupeAux_eq_self ps _ hnd' ?_
    intro q hq hqs
    rcases Finset.mem_insert.mp hqs with hqp | hqs'
    · exact hph (hqp ▸ List.mem_map_of_mem pathKey hq)
    · exact hout q (List.mem_cons_of_mem _ hq) hqs'

/-- If the keys of the input are pairwise distinct, `dedupePaths` is the identity. -/
lemma dedupePaths_eq_self (l : List WinPath) (hnd : (l.map pathKey).Nodup) :
    dedupePaths l = l :=
  dedupeAux_eq_self l ∅ hnd (by simp)

/-- The outputs of `dedupePaths` have pairwise distinct keys. -/
lemma dedupePaths_keys_nodup (l : List WinPath) :
    ((dedupePaths l).map pathKey).Nodup :=
  dedupeAux_keys_nodup l ∅

/-- `dedupePaths` outputs are members of the input. -/
lemma dedupePaths_subset (l : List WinPath) : ∀ p ∈ dedupePaths l, p ∈ l :=
  fun _ hp => (dedupeAux_sublist l ∅).mem hp

/-- Each output of `dedupeAux` is the first element of the input with its key,
among elements whose key is outside `seen`. -/
lemma dedupeAux_first_occurrence :
    ∀ (l : List WinPath) (seen : Finset (Multiset GridCoord)), ∀ p ∈ dedupeAux l seen,
      ∃ l₁ l₂, l = l₁ ++ p :: l₂ ∧
        ∀ q ∈ l₁, pathKey q ∈ seen ∨ pathKey q ≠ pathKey p
  | [], _ => by simp [dedupeAux]
  | x :: xs, seen => by
    unfold dedupeAux
    by_cases h : pathKey x ∈ seen
    · simp only [h, if_true]
      intro p hp
      obtain ⟨l₁, l₂, hsplit, hfirst⟩ := dedupeAux_first_occurrence xs seen p hp
      exact ⟨x :: l₁, l₂, by rw [hsplit]; rfl, by
        intro q hq
        rcases List.mem_cons.mp hq with rfl | hq
        · exact Or.inl h
        · exact hfirst q hq⟩
    · simp only [h, if_false]
      intro p hp
      rcases List.mem_cons.mp hp with rfl | hp
      · exact ⟨[], xs, rfl, by simp⟩
      · obtain ⟨l₁, l₂, hsplit, hfirst⟩ :=
          dedupeAux_first_occurrence xs (insert (pathKey x) seen) p hp
        have hpk : pathKey p ∉ insert (pathKey x) seen :=
          dedupeAux_key_not_seen xs _ p hp
        refine ⟨x :: l₁, l₂, by rw [hsplit]; rfl, ?_⟩
        intro q hq
        rcases List.mem_cons.mp hq with rfl | hq
        · right
          intro hxp
          exact hpk (hxp ▸ Finset.mem_insert_self _ _)
        · rcases hfirst q hq with hin | hne
          · rcases Finset.mem_insert.mp hin with hqx | hqs
            · right
              intro hqp
              exact hpk (hqp ▸ hqx ▸ Finset.mem_insert_self _ _)
            · exact Or.inl hqs
          · exact Or.inr hne

/-- First occurrence kept: each output of `dedupePaths` occurs in the input
with no earlier element of the same key. -/
lemma dedupePaths_first_occurrence (l : List WinPath) :
    ∀ p ∈ dedupePaths l, ∃ l₁ l₂, l = l₁ ++ p :: l₂ ∧ ∀ q ∈ l₁, pathKey q ≠ pathKey p := by
  intro p hp
  obtain ⟨l₁, l₂, hsplit, hfirst⟩ := dedupeAux_first_occurrence l ∅ p hp
  exact ⟨l₁, l₂, hsplit, fun q hq => (hfirst q hq).resolve_left (by simp)⟩

/-- Generic: a `filterMap` of an if-then-else is a `filter` followed by `map`. -/
lemma filterMap_ite_eq_filter_map {α β : Type} (l : List α) (p : α → Bool) (f : α → β) :
    (l.filterMap fun a => if p a then some (f a) else none) = (l.filter p).map f := by
  induction l with
  | nil => rfl
  | cons x xs ih =>
    by_cases h : p x <;> simp [List.filterMap_cons, List.filter_cons, h, ih]

/-! ## Grid access lemmas -/

lemma isValidGrid_iff (g : Grid) :
    isValidGrid g = true ↔ g.length = REEL_COUNT ∧ ∀ row ∈ g, row.length = SYMBOLS_PER_REEL := by
  simp [isValidGrid, List.all_eq_true]

lemma exists_row_of_valid (g : Grid) (hv : isValidGrid g = true) {r : Nat} (hr : r < REEL_COUNT) :
    ∃ row, g.get? r = some row ∧ row.length = SYMBOLS_PER_REEL := by
  obtain ⟨hlen, hall⟩ := (isValidGrid_iff g).mp hv
  have hr' : r < g.length := by omega
  refine ⟨g.get ⟨r, hr'⟩, List.get?_eq_get hr', hall _ (g.get_mem _ _)⟩

lemma getCell_of_row {g : Grid} {row : List Cell} {r : Nat} (h : g.get? r = some row) (c : Nat) :
    getCell g r c = (row.get? c).getD none := by
  unfold getCell
  rw [h]

lemma getD_row {g : Grid} {row : List Cell} {r : Nat} (h : g.get? r = some row) :
    g.getD r [] = row := by
  rw [List.getD_eq_getD_get?, h]
  rfl

/-- A cell read beyond the rows of the grid is `none`. -/
lemma getCell_none_of_ge {g : Grid} {r : Nat} (h : g.length ≤ r) (c : Nat) :
    getCell g r c = none := by
  unfold getCell
  rw [List.get?_eq_none.mpr h]

/-! ## Membership in the canonical paths -/

lemma mem_rowPath {r : Nat} {x : GridCoord} :
    x ∈ rowPath r ↔ x.r = r ∧ x.c < SYMBOLS_PER_REEL := by
  constructor
  · intro hx
    obtain ⟨c, hc, rfl⟩ := List.mem_map.mp hx
    exact ⟨rfl, by simpa using List.mem_range.mp hc⟩
  · rintro ⟨h1, h2⟩
    refine List.mem_map.mpr ⟨x.c, List.mem_range.mpr h2, ?_⟩
    cases x
    simp at h1 ⊢
    exact h1.symm

lemma mem_colPath {c : Nat} {x : GridCoord} :
    x ∈ colPath c ↔ x.c = c ∧ x.r < REEL_COUNT := by
  constructor
  · intro hx
    obtain ⟨r, hr, rfl⟩ := List.mem_map.mp hx
    exact ⟨rfl, by simpa using List.mem_range.mp hr⟩
  · rintro ⟨h1, h2⟩
    refine List.mem_map.mpr ⟨x.r, List.mem_range.mpr h2, ?_⟩
    cases x
    simp at h1 ⊢
    exact h1.symm

lemma mem_diagPlusPath {c : Nat} {x : GridCoord} :
    x ∈ diagPlusPath c ↔ x.r < REEL_COUNT ∧ x.c = c + x.r := by
  constructor
  · intro hx
    obtain ⟨r, hr, rfl⟩ := List.mem_map.mp hx
    exact ⟨by simpa using List.mem_range.mp hr, rfl⟩
  · rintro ⟨h1, h2⟩
    refine List.mem_map.mpr ⟨x.r, List.mem_range.mpr h1, ?_⟩
    cases x
    simp at h2 ⊢
    exact h2.symm

lemma mem_diagMinusPath {c : Nat} {x : GridCoord} :
    x ∈ diagMinusPath c ↔ x.r < REEL_COUNT ∧ x.c = c - x.r := by
  constructor
  · intro hx
    obtain ⟨r, hr, rfl⟩ := List.mem_map.mp hx
    exact ⟨by simpa using List.mem_range.mp hr, rfl⟩
  · rintro ⟨h1, h2⟩
    refine List.mem_map.mpr ⟨x.r, List.mem_range.mpr h1, ?_⟩
    cases x
    simp at h2 ⊢
    exact h2.symm

lemma length_rowPath (r : Nat) : (rowPath r).length = SYMBOLS_PER_REEL := by simp [rowPath]

lemma length_colPath (c : Nat) : (colPath c).length = REEL_COUNT := by simp [colPath]

/-- Pointwise congruence for `filterMap`. -/
lemma filterMap_congr_mem {α β : Type} {l : List α} {f f' : α → Option β}
    (h : ∀ a ∈ l, f a = f' a) : l.filterMap f = l.filterMap f' := by
  induction l with
  | nil => rfl
  | cons x xs ih =>
    rw [List.filterMap_cons, List.filterMap_cons, h x (List.mem_cons_self _ _),
      ih fun a ha => h a (List.mem_cons_of_mem _ ha)]

/-! ## Characterization of the horizontal scan -/

lemma specRowWin_iff (g : Grid) (hv : isValidGrid g = true) {r : Nat} (hr : r < REEL_COUNT) :
    specRowWin g r ↔
      ∃ fs, getCell g r 0 = some fs ∧ fs ≠ "" ∧ ∀ cell ∈ g.getD r [], cell = some fs := by
  obtain ⟨row, hrow, hlen⟩ := exists_row_of_valid g hv hr
  rw [getD_row hrow]
  constructor
  · rintro ⟨hfill, heq⟩
    have h0 := hfill 0 (by norm_num [SYMBOLS_PER_REEL])
    obtain ⟨fs, hfs⟩ : ∃ fs, getCell g r 0 = some fs := by
      rcases h : getCell g r 0 with _ | fs
      · exact absurd rfl (h ▸ h0).1
      · exact ⟨fs, rfl⟩
    refine ⟨fs, hfs, ?_, ?_⟩
    · intro hempty
      exact (hfs ▸ h0).2 (by rw [hempty])
    · intro cell hcell
      obtain ⟨c, hc⟩ := List.mem_iff_get?.mp hcell
      have hclen : c < SYMBOLS_PER_REEL := by
        by_contra hge
        rw [List.get?_eq_none.mpr (by omega)] at hc
        cases hc
      have : getCell g r c = cell := by
        rw [getCell_of_row hrow, hc]
        rfl
      rw [← this, heq c hclen 0 (by norm_num [SYMBOLS_PER_REEL]), hfs]
  · rintro ⟨fs, hfs0, hne, hall⟩
    have hcell : ∀ c < SYMBOLS_PER_REEL, getCell g r c = some fs := by
      intro c hc
      have hc' : c < row.length := by omega
      rw [getCell_of_row hrow, List.get?_eq_get hc']
      exact hall _ (row.get_mem _ _)
    constructor
    · intro c hc
      rw [hcell c hc]
      exact ⟨by simp, by simpa using hne⟩
    · intro c₁ h₁ c₂ h₂
      rw [hcell c₁ h₁, hcell c₂ h₂]

lemma findHorizontalWins_eq (g : Grid) (hv : isValidGrid g = true) :
    findHorizontalWins g =
      ((List.range REEL_COUNT).filter fun r => decide (specRowWin g r)).map rowPath := by
  unfold findHorizontalWins
  rw [← filterMap_ite_eq_filter_map]
  apply filterMap_congr_mem
  intro r hr
  have hr' : r < REEL_COUNT := List.mem_range.mp hr
  split
  next h0 =>
    have hns : ¬ specRowWin g r := by
      intro hs
      have h00 := hs.1 0 (by norm_num [SYMBOLS_PER_REEL])
      rw [h0] at h00
      exact h00.1 rfl
    rw [if_neg (by rw [decide_eq_true_eq]; exact hns)]
  next fs h0 =>
    by_cases hcond : fs ≠ "" ∧ ((g.getD r []).all fun cell => cell == some fs) = true
    · rw [if_pos hcond]
      have hs : specRowWin g r := (specRowWin_iff g hv hr').mpr
        ⟨fs, h0, hcond.1, fun cell hcell => by
          have := List.all_eq_true.mp hcond.2 cell hcell
          rwa [beq_iff_eq] at this⟩
      rw [if_pos (by rw [decide_eq_true_eq]; exact hs)]
      rfl
    · rw [if_neg hcond]
      have hns : ¬ specRowWin g r := by
        intro hs
        obtain ⟨fs', hfs0', hne', hall'⟩ := (specRowWin_iff g hv hr').mp hs
        rw [h0] at hfs0'
        cases hfs0'
        exact hcond ⟨hne', List.all_eq_true.mpr fun cell hcell => by
          rw [beq_iff_eq]
          exact hall' cell hcell⟩
      rw [if_neg (by rw [decide_eq_true_eq]; exact hns)]

/-! ## Characterization of the vertical scan -/

lemma specColWin_iff (g : Grid) (c : Nat) :
    specColWin g c ↔ ∃ fs, getCell g 0 c = some fs ∧ fs ≠ "" ∧
      ∀ r ∈ List.range' 1 (REEL_COUNT - 1), getCell g r c = some fs := by
  constructor
  · rintro ⟨hfill, heq⟩
    have h0 := hfill 0 (by norm_num [REEL_COUNT])
    obtain ⟨fs, hfs⟩ : ∃ fs, getCell g 0 c = some fs := by
      rcases h : getCell g 0 c with _ | fs
      · exact absurd rfl (h ▸ h0).1
      · exact ⟨fs, rfl⟩
    refine ⟨fs, hfs, fun hempty => (hfs ▸ h0).2 (by rw [hempty]), ?_⟩
    intro r hrm
    have hrb := List.mem_range'_1.mp hrm
    rw [heq r (by omega) 0 (by norm_num [REEL_COUNT]), hfs]
  · rintro ⟨fs, hfs0, hne, hall⟩
    have hcell : ∀ r < REEL_COUNT, getCell g r c = some fs := by
      intro r hrk
      rcases Nat.eq_zero_or_pos r with rfl | hpos
      · exact hfs0
      · exact hall r (List.mem_range'_1.mpr ⟨hpos, by omega⟩)
    exact ⟨fun r hrk => by
        rw [hcell r hrk]
        exact ⟨by simp, by simpa using hne⟩,
      fun r₁ h₁ r₂ h₂ => by rw [hcell r₁ h₁, hcell r₂ h₂]⟩

lemma findVerticalWins_eq (g : Grid) :
    findVerticalWins g =
      ((List.range SYMBOLS_PER_REEL).filter fun c => decide (specColWin g c)).map colPath := by
  unfold findVerticalWins
  rw [← filterMap_ite_eq_filter_map]
  apply filterMap_congr_mem
  intro c _
  split
  next h0 =>
    have hns : ¬ specColWin g c := by
      intro hs
      have h00 := hs.1 0 (by norm_num [REEL_COUNT])
      rw [h0] at h00
      exact h00.1 rfl
    rw [if_neg (by rw [decide_eq_true_eq]; exact hns)]
  next fs h0 =>
    by_cases hcond : fs ≠ "" ∧
        ((List.range' 1 (REEL_COUNT - 1)).all fun r => getCell g r c == some fs) = true
    · rw [if_pos hcond]
      have hs : specColWin g c := (specColWin_iff g c).mpr
        ⟨fs, h0, hcond.1, fun r hrm => by
          have := List.all_eq_true.mp hcond.2 r hrm
          rwa [beq_iff_eq] at this⟩
      rw [if_pos (by rw [decide_eq_true_eq]; exact hs)]
      rfl
    · rw [if_neg hcond]
      have hns : ¬ specColWin g c := by
        intro hs
        obtain ⟨fs', hfs0', hne', hall'⟩ := (specColWin_iff g c).mp hs
        rw [h0] at hfs0'
        cases hfs0'
        exact hcond ⟨hne', List.all_eq_true.mpr fun r hrm => by
          rw [beq_iff_eq]
          exact hall' r hrm⟩
      rw [if_neg (by rw [decide_eq_true_eq]; exact hns)]

/-! ## Characterization of the diagonal scan -/

lemma specDiagPlusWin_iff (g : Grid) (c : Nat) :
    specDiagPlusWin g c ↔ ∃ fs, getCell g 0 c = some fs ∧ fs ≠ "" ∧
      ∀ r ∈ List.range' 1 (REEL_COUNT - 1), getCell g r (c + r) = some fs := by
  constructor
  · rintro ⟨hfill, heq⟩
    have h0 := hfill 0 (by norm_num [REEL_COUNT])
    rw [Nat.add_zero] at h0
    obtain ⟨fs, hfs⟩ : ∃ fs, getCell g 0 c = some fs := by
      rcases h : getCell g 0 c with _ | fs
      · exact absurd rfl (h ▸ h0).1
      · exact ⟨fs, rfl⟩
    refine ⟨fs, hfs, fun hempty => (hfs ▸ h0).2 (by rw [hempty]), ?_⟩
    intro r hrm
    have hrb := List.mem_range'_1.mp hrm
    have := heq r (by omega) 0 (by norm_num [REEL_COUNT])
    rw [Nat.add_zero] at this
    rw [this, hfs]
  · rintro ⟨fs, hfs0, hne, hall⟩
    have hcell : ∀ r < REEL_COUNT, getCell g r (c + r) = some fs := by
      intro r hrk
      rcases Nat.eq_zero_or_pos r with rfl | hpos
      · rwa [Nat.add_zero]
      · exact hall r (List.mem_range'_1.mpr ⟨hpos, by omega⟩)
    exact ⟨fun r hrk => by
        rw [hcell r hrk]
        exact ⟨by simp, by simpa using hne⟩,
      fun r₁ h₁ r₂ h₂ => by rw [hcell r₁ h₁, hcell r₂ h₂]⟩

lemma specDiagMinusWin_iff (g : Grid) (c : Nat) :
    specDiagMinusWin g c ↔ ∃ fs, getCell g 0 c = some fs ∧ fs ≠ "" ∧
      ∀ r ∈ List.range' 1 (REEL_COUNT - 1), getCell g r (c - r) = some fs := by
  constructor
  · rintro ⟨hfill, heq⟩
    have h0 := hfill 0 (by norm_num [REEL_COUNT])
    rw [Nat.sub_zero] at h0
    obtain ⟨fs, hfs⟩ : ∃ fs, getCell g 0 c = some fs := by
      rcases h : getCell g 0 c with _ | fs
      · exact absurd rfl (h ▸ h0).1
      · exact ⟨fs, rfl⟩
    refine ⟨fs, hfs, fun hempty => (hfs ▸ h0).2 (by rw [hempty]), ?_⟩
    intro r hrm
    have hrb := List.mem_range'_1.mp hrm
    have := heq r (by omega) 0 (by norm_num [REEL_COUNT])
    rw [Nat.sub_zero] at this
    rw [this, hfs]
  · rintro ⟨fs, hfs0, hne, hall⟩
    have hcell : ∀ r < REEL_COUNT, getCell g r (c - r) = some fs := by
      intro r hrk
      rcases Nat.eq_zero_or_pos r with rfl | hpos
      · rwa [Nat.sub_zero]
      · exact hall r (List.mem_range'_1.mpr ⟨hpos, by omega⟩)
    exact ⟨fun r hrk => by
        rw [hcell r hrk]
        exact ⟨by simp, by simpa using hne⟩,
      fun r₁ h₁ r₂ h₂ => by rw [hcell r₁ h₁, hcell r₂ h₂]⟩

lemma findDiagonalWins_eq (g : Grid) :
    findDiagonalWins g =
      ((List.range (SYMBOLS_PER_REEL - REEL_COUNT + 1)).filter fun c =>
        decide (specDiagPlusWin g c)).map diagPlusPath ++
      (((List.range' (REEL_COUNT - 1) (SYMBOLS_PER_REEL - REEL_COUNT + 1)).reverse).filter fun c =>
        decide (specDiagMinusWin g c)).map diagMinusPath := by
  unfold findDiagonalWins
  dsimp only
  congr 1
  · rw [← filterMap_ite_eq_filter_map]
    apply filterMap_congr_mem
    intro c _
    split
    next h0 =>
      have hns : ¬ specDiagPlusWin g c := by
        intro hs
        have h00 := hs.1 0 (by norm_num [REEL_COUNT])
        rw [Nat.add_zero, h0] at h00
        exact h00.1 rfl
      rw [if_neg (by rw [decide_eq_true_eq]; exact hns)]
    next fs h0 =>
      by_cases hcond : fs ≠ "" ∧
          ((List.range' 1 (REEL_COUNT - 1)).all fun r => getCell g r (c + r) == some fs) = true
      · rw [if_pos hcond]
        have hs : specDiagPlusWin g c := (specDiagPlusWin_iff g c).mpr
          ⟨fs, h0, hcond.1, fun r hrm => by
            have := List.all_eq_true.mp hcond.2 r hrm
            rwa [beq_iff_eq] at this⟩
        rw [if_pos (by rw [decide_eq_true_eq]; exact hs)]
        rfl
      · rw [if_neg hcond]
        have hns : ¬ specDiagPlusWin g c := by
          intro hs
          obtain ⟨fs', hfs0', hne', hall'⟩ := (specDiagPlusWin_iff g c).mp hs
          rw [h0] at hfs0'
          cases hfs0'
          exact hcond ⟨hne', List.all_eq_true.mpr fun r hrm => by
            rw [beq_iff_eq]
            exact hall' r hrm⟩
        rw [if_neg (by rw [decide_eq_true_eq]; exact hns)]
  · rw [← filterMap_ite_eq_filter_map]
    apply filterMap_congr_mem
    intro c _
    split
    next h0 =>
      have hns : ¬ specDiagMinusWin g c := by
        intro hs
        have h00 := hs.1 0 (by norm_num [REEL_COUNT])
        rw [Nat.sub_zero, h0] at h00
        exact h00.1 rfl
      rw [if_neg (by rw [decide_eq_true_eq]; exact hns)]
    next fs h0 =>
      by_cases hcond : fs ≠ "" ∧
          ((List.range' 1 (REEL_COUNT - 1)).all fun r => getCell g r (c - r) == some fs) = true
      · rw [if_pos hcond]
        have hs : specDiagMinusWin g c := (specDiagMinusWin_iff g c).mpr
          ⟨fs, h0, hcond.1, fun r hrm => by
            have := List.all_eq_true.mp hcond.2 r hrm
            rwa [beq_iff_eq] at this⟩
        rw [if_pos (by rw [decide_eq_true_eq]; exact hs)]
        rfl
      · rw [if_neg hcond]
        have hns : ¬ specDiagMinusWin g c := by
          intro hs
          obtain ⟨fs', hfs0', hne', hall'⟩ := (specDiagMinusWin_iff g c).mp hs
          rw [h0] at hfs0'
          cases hfs0'
          exact hcond ⟨hne', List.all_eq_true.mpr fun r hrm => by
            rw [beq_iff_eq]
            exact hall' r hrm⟩
        rw [if_neg (by rw [decide_eq_true_eq]; exact hns)]

/-! ## computeWins on a valid grid -/

lemma computeWins_valid (g : Grid) (hv : isValidGrid g = true) :
    computeWins g =
      { straight := dedupePaths (findHorizontalWins g ++ findVerticalWins g)
        diagonal := dedupePaths (findDiagonalWins g)
        adjacency := dedupePaths ((findAdjacencyWins g).filter
          fun p => !(isStraightOrDiagonalPath p)) } := by
  simp [computeWins, hv]

/-! ## Key distinctness of the straight and diagonal raw lists -/

lemma mem_pathKey {p : WinPath} {x : GridCoord} : x ∈ pathKey p ↔ x ∈ p := by
  simp [pathKey]

lemma card_pathKey (p : WinPath) : Multiset.card (pathKey p) = p.length := by
  simp [pathKey]

lemma straight_keys_nodup (g : Grid) (hv : isValidGrid g = true) :
    ((findHorizontalWins g ++ findVerticalWins g).map pathKey).Nodup := by
  rw [findHorizontalWins_eq g hv, findVerticalWins_eq g, List.map_append, List.map_map,
    List.map_map]
  refine List.Nodup.append ?_ ?_ ?_
  · refine List.Nodup.map_on ?_ (List.Nodup.filter _ (List.nodup_range _))
    intro r hr r' hr' hkey
    have h1 : (⟨r, 0⟩ : GridCoord) ∈ pathKey (rowPath r) :=
      mem_pathKey.mpr (mem_rowPath.mpr ⟨rfl, by norm_num [SYMBOLS_PER_REEL]⟩)
    have h2 := mem_rowPath.mp (mem_pathKey.mp (by
      have hkey2 : pathKey (rowPath r) = pathKey (rowPath r') := hkey
      rw [hkey2] at h1
      exact h1))
    exact h2.1
  · refine List.Nodup.map_on ?_ (List.Nodup.filter _ (List.nodup_range _))
    intro c hc c' hc' hkey
    have h1 : (⟨0, c⟩ : GridCoord) ∈ pathKey (colPath c) :=
      mem_pathKey.mpr (mem_colPath.mpr ⟨rfl, by norm_num [REEL_COUNT]⟩)
    have h2 := mem_colPath.mp (mem_pathKey.mp (by
      have hkey2 : pathKey (colPath c) = pathKey (colPath c') := hkey
      rw [hkey2] at h1
      exact h1))
    exact h2.1
  · intro k hk1 hk2
    obtain ⟨r, _, hkr⟩ := List.mem_map.mp hk1
    obtain ⟨c, _, hkc⟩ := List.mem_map.mp hk2
    have : (SYMBOLS_PER_REEL : Nat) = REEL_COUNT := by
      have h1 : Multiset.card k = SYMBOLS_PER_REEL := by
        rw [← hkr]
        simp [Function.comp, card_pathKey, rowPath]
      have h2 : Multiset.card k = REEL_COUNT := by
        rw [← hkc]
        simp [Function.comp, card_pathKey, colPath]
      omega
    norm_num [SYMBOLS_PER_REEL, REEL_COUNT] at this

lemma diagonal_keys_nodup (g : Grid) :
    ((findDiagonalWins g).map pathKey).Nodup := by
  rw [findDiagonalWins_eq g, List.map_append, List.map_map, List.map_map]
  refine List.Nodup.append ?_ ?_ ?_
  · refine List.Nodup.map_on ?_ (List.Nodup.filter _ (List.nodup_range _))
    intro c hc c' hc' hkey
    have h1 : (⟨0, c⟩ : GridCoord) ∈ pathKey (diagPlusPath c) :=
      mem_pathKey.mpr (mem_diagPlusPath.mpr ⟨by norm_num [REEL_COUNT], rfl⟩)
    have h2 := mem_diagPlusPath.mp (mem_pathKey.mp (by
      have hkey2 : pathKey (diagPlusPath c) = pathKey (diagPlusPath c') := hkey
      rw [hkey2] at h1
      exact h1))
    simpa using h2.2
  · refine List.Nodup.map_on ?_ (List.Nodup.filter _ (List.nodup_reverse.mpr (List.nodup_range' _ _)))
    intro c hc c' hc' hkey
    have h1 : (⟨0, c⟩ : GridCoord) ∈ pathKey (diagMinusPath c) :=
      mem_pathKey.mpr (mem_diagMinusPath.mpr ⟨by norm_num [REEL_COUNT], rfl⟩)
    have h2 := mem_diagMinusPath.mp (mem_pathKey.mp (by
      have hkey2 : pathKey (diagMinusPath c) = pathKey (diagMinusPath c') := hkey
      rw [hkey2] at h1
      exact h1))
    simpa using h2.2
  · intro k hk1 hk2
    obtain ⟨c, hcm, hkc⟩ := List.mem_map.mp hk1
    obtain ⟨c', hcm', hkc'⟩ := List.mem_map.mp hk2
    have hcr : c < SYMBOLS_PER_REEL - REEL_COUNT + 1 :=
      List.mem_range.mp (List.mem_of_mem_filter hcm)
    have hcr' : REEL_COUNT - 1 ≤ c' := by
      have := List.mem_reverse.mp (List.mem_of_mem_filter hcm')
      exact (List.mem_range'_1.mp this).1
    have h1 : (⟨0, c⟩ : GridCoord) ∈ pathKey (diagPlusPath c) :=
      mem_pathKey.mpr (mem_diagPlusPath.mpr ⟨by norm_num [REEL_COUNT], rfl⟩)
    have hkk : pathKey (diagPlusPath c) = pathKey (diagMinusPath c') := by
      have hstep : (pathKey ∘ diagPlusPath) c = (pathKey ∘ diagMinusPath) c' := by
        rw [hkc, hkc']
      exact hstep
    rw [hkk] at h1
    have h2 := mem_diagMinusPath.mp (mem_pathKey.mp h1)
    have : c = c' := by simpa using h2.2
    norm_num [SYMBOLS_PER_REEL, REEL_COUNT] at hcr hcr'
    omega

/-! ## Claim C3: exact characterization of the straight collection -/

/-- Claim C3: for every valid 4x6 grid, the straight collection is exactly the
full-row path for each row whose 6 cells share one non-empty symbol (in row
order), followed by the full-column path for each column whose 4 cells share
one non-empty symbol (in column order); hence at most 4 + 6 paths. -/
theorem straight_collection_exact (g : Grid) (hv : isValidGrid g = true) :
    (computeWins g).straight =
      ((List.range REEL_COUNT).filter fun r => decide (specRowWin g r)).map rowPath ++
      ((List.range SYMBOLS_PER_REEL).filter fun c => decide (specColWin g c)).map colPath ∧
    (computeWins g).straight.length ≤ REEL_COUNT + SYMBOLS_PER_REEL := by
  have heq : (computeWins g).straight = findHorizontalWins g ++ findVerticalWins g := by
    rw [computeWins_valid g hv]
    exact dedupePaths_eq_self _ (straight_keys_nodup g hv)
  constructor
  · rw [heq, findHorizontalWins_eq g hv, findVerticalWins_eq g]
  · rw [heq, findHorizontalWins_eq g hv, findVerticalWins_eq g, List.length_append,
      List.length_map, List.length_map]
    have h1 := List.length_filter_le (fun r => decide (specRowWin g r)) (List.range REEL_COUNT)
    have h2 := List.length_filter_le (fun c => decide (specColWin g c)) (List.range SYMBOLS_PER_REEL)
    simp only [List.length_range] at h1 h2
    omega

theorem straight_collection_exact_witness :
    isValidGrid witnessGridC3 = true ∧
    ((computeWins witnessGridC3).straight =
      ((List.range REEL_COUNT).filter fun r => decide (specRowWin witnessGridC3 r)).map rowPath ++
      ((List.range SYMBOLS_PER_REEL).filter fun c =>
        decide (specColWin witnessGridC3 c)).map colPath ∧
    (computeWins witnessGridC3).straight.length ≤ REEL_COUNT + SYMBOLS_PER_REEL) :=
  ⟨by decide, straight_collection_exact witnessGridC3 (by decide)⟩

/-! ## Claim C4: exact characterization of the diagonal collection -/

/-- Claim C4: for every valid 4x6 grid, the diagonal collection is exactly the
full-height slope +1 runs for start columns 0..2 and the full-height slope −1
runs for start columns 5 down to 3 (both slopes scanned independently), and
every reported diagonal path has length 4 (no shorter run is reported). -/
theorem diagonal_collection_exact (g : Grid) (hv : isValidGrid g = true) :
    (computeWins g).diagonal =
      ((List.range (SYMBOLS_PER_REEL - REEL_COUNT + 1)).filter fun c =>
        decide (specDiagPlusWin g c)).map diagPlusPath ++
      (((List.range' (REEL_COUNT - 1) (SYMBOLS_PER_REEL - REEL_COUNT + 1)).reverse).filter fun c =>
        decide (specDiagMinusWin g c)).map diagMinusPath ∧
    ∀ p ∈ (computeWins g).diagonal, p.length = REEL_COUNT := by
  have heq : (computeWins g).diagonal = findDiagonalWins g := by
    rw [computeWins_valid g hv]
    exact dedupePaths_eq_self _ (diagonal_keys_nodup g)
  refine ⟨by rw [heq, findDiagonalWins_eq], ?_⟩
  intro p hp
  rw [heq, findDiagonalWins_eq] at hp
  rcases List.mem_append.mp hp with hp | hp
  · obtain ⟨c, _, rfl⟩ := List.mem_map.mp hp
    simp [diagPlusPath]
  · obtain ⟨c, _, rfl⟩ := List.mem_map.mp hp
    simp [diagMinusPath]

theorem diagonal_collection_exact_witness :
    isValidGrid witnessGridC4 = true ∧
    ((computeWins witnessGridC4).diagonal =
      ((List.range (SYMBOLS_PER_REEL - REEL_COUNT + 1)).filter fun c =>
        decide (specDiagPlusWin witnessGridC4 c)).map diagPlusPath ++
      (((List.range' (REEL_COUNT - 1) (SYMBOLS_PER_REEL - REEL_COUNT + 1)).reverse).filter fun c =>
        decide (specDiagMinusWin witnessGridC4 c)).map diagMinusPath ∧
    ∀ p ∈ (computeWins witnessGridC4).diagonal, p.length = REEL_COUNT) :=
  ⟨by decide, diagonal_collection_exact witnessGridC4 (by decide)⟩

/-! ## BFS: basic facts -/

lemma mem_gridUniverse {g : Grid} {x : GridCoord} :
    x ∈ gridUniverse g ↔ x.r < g.length ∧ x.c < SYMBOLS_PER_REEL := by
  unfold gridUniverse
  constructor
  · intro hx
    obtain ⟨⟨a, b⟩, hab, rfl⟩ := Finset.mem_image.mp hx
    have := Finset.mem_product.mp hab
    simpa using this
  · intro ⟨h1, h2⟩
    exact Finset.mem_image.mpr ⟨(x.r, x.c), Finset.mem_product.mpr ⟨by simpa using h1,
      by simpa using h2⟩, by cases x; rfl⟩

/-- A successful cell read means the row index is inside the grid. -/
lemma row_lt_of_getCell_some {g : Grid} {r c : Nat} {s : String}
    (h : getCell g r c = some s) : r < g.length := by
  unfold getCell at h
  rcases hrow : g.get? r with _ | row
  · rw [hrow] at h
    cases h
  · rcases List.get?_eq_some.mp hrow with ⟨hr, _⟩
    exact hr

/-- Case analysis for one expansion attempt. -/
lemma tryPush_spec (g : Grid) (s : String) (coord : GridCoord) (path : WinPath)
    (st : List BfsEntry × Finset GridCoord) (dc : Int) :
    tryPush g s coord path st dc = st ∨
    ∃ nc : GridCoord, nc.r = coord.r + 1 ∧ (nc.c : Int) = (coord.c : Int) + dc ∧
      nc.c < SYMBOLS_PER_REEL ∧ nc ∉ st.2 ∧ getCell g nc.r nc.c = some s ∧
      tryPush g s coord path st dc =
        (st.1 ++ [(nc, path ++ [nc])], insert nc st.2) := by
  unfold tryPush
  by_cases h : 0 ≤ (coord.c : Int) + dc ∧ (coord.c : Int) + dc < (SYMBOLS_PER_REEL : Int) ∧
      (⟨coord.r + 1, ((coord.c : Int) + dc).toNat⟩ : GridCoord) ∉ st.2 ∧
      getCell g (coord.r + 1) ((coord.c : Int) + dc).toNat = some s
  · right
    refine ⟨⟨coord.r + 1, ((coord.c : Int) + dc).toNat⟩, rfl, ?_, ?_, h.2.2.1, h.2.2.2, ?_⟩
    · simpa using Int.toNat_of_nonneg h.1
    · have h1 := h.1
      have h2 := h.2.1
      dsimp only
      omega
    · rw [if_pos h]
  · left
    rw [if_neg h]

/-- One expansion attempt does not increase the loop measure. -/
lemma tryPush_measure (g : Grid) (s : String) (coord : GridCoord) (path : WinPath)
    (st : List BfsEntry × Finset GridCoord) (dc : Int) :
    bfsMeasure g (tryPush g s coord path st dc).1 (tryPush g s coord path st dc).2 ≤
      bfsMeasure g st.1 st.2 := by
  rcases tryPush_spec g s coord path st dc with heq | ⟨nc, hr, hcInt, hc, hnotv, hcell, heq⟩
  · rw [heq]
  · rw [heq]
    unfold bfsMeasure
    have hU : nc ∈ gridUniverse g :=
      mem_gridUniverse.mpr ⟨row_lt_of_getCell_some hcell, hc⟩
    have hmem : nc ∈ gridUniverse g \ st.2 := Finset.mem_sdiff.mpr ⟨hU, hnotv⟩
    have hcard : (gridUniverse g \ insert nc st.2).card = (gridUniverse g \ st.2).card - 1 := by
      rw [Finset.sdiff_insert, Finset.card_erase_of_mem hmem]
    have hpos : 1 ≤ (gridUniverse g \ st.2).card := Finset.card_pos.mpr ⟨nc, hmem⟩
    rw [hcard, List.length_append]
    simp only [List.length_cons, List.length_nil]
    omega

/-- The full expansion does not increase the loop measure. -/
lemma expandEntry_measure (g : Grid) (s : String) (coord : GridCoord) (path : WinPath)
    (st : List BfsEntry × Finset GridCoord) :
    bfsMeasure g (expandEntry g s coord path st).1 (expandEntry g s coord path st).2 ≤
      bfsMeasure g st.1 st.2 := by
  unfold expandEntry
  calc bfsMeasure g (tryPush g s coord path (tryPush g s coord path
          (tryPush g s coord path st (-1)) 0) 1).1
        (tryPush g s coord path (tryPush g s coord path
          (tryPush g s coord path st (-1)) 0) 1).2
      ≤ bfsMeasure g (tryPush g s coord path (tryPush g s coord path st (-1)) 0).1
          (tryPush g s coord path (tryPush g s coord path st (-1)) 0).2 :=
        tryPush_measure g s coord path _ 1
    _ ≤ bfsMeasure g (tryPush g s coord path st (-1)).1 (tryPush g s coord path st (-1)).2 :=
        tryPush_measure g s coord path _ 0
    _ ≤ bfsMeasure g st.1 st.2 := tryPush_measure g s coord path st (-1)

lemma bfsLoop_nil (g : Grid) (s : String) (fuel : Nat) (v : Finset GridCoord) :
    bfsLoop g s fuel [] v = [] := by
  cases fuel <;> rfl

/-- Claim C10 helper: with at least `bfsMeasure` fuel, the result does not
depend on the fuel: the loop always exits because the queue runs dry. -/
lemma bfsLoop_fuel_irrelevant (g : Grid) (s : String) :
    ∀ fuel fuel' (q : List BfsEntry) (v : Finset GridCoord),
      bfsMeasure g q v ≤ fuel → bfsMeasure g q v ≤ fuel' →
      bfsLoop g s fuel q v = bfsLoop g s fuel' q v := by
  intro fuel
  induction fuel with
  | zero =>
    intro fuel' q v hm _
    have hq : q = [] := by
      have : q.length = 0 := by
        unfold bfsMeasure at hm
        omega
      exact List.length_eq_zero.mp this
    subst hq
    rw [bfsLoop_nil, bfsLoop_nil]
  | succ fuel ih =>
    intro fuel' q v hm hm'
    match q with
    | [] => rw [bfsLoop_nil, bfsLoop_nil]
    | (coord, path) :: rest =>
      have hq1 : 1 ≤ bfsMeasure g ((coord, path) :: rest) v := by
        unfold bfsMeasure
        simp only [List.length_cons]
        omega
      match fuel' with
      | 0 => omega
      | fuel' + 1 =>
        have hrest : bfsMeasure g rest v + 1 = bfsMeasure g ((coord, path) :: rest) v := by
          unfold bfsMeasure
          simp only [List.length_cons]
          omega
        simp only [bfsLoop]
        by_cases hb : coord.r = REEL_COUNT - 1
        · rw [if_pos hb, if_pos hb, ih fuel' rest v (by omega) (by omega)]
        · rw [if_neg hb, if_neg hb]
          have hexp : bfsMeasure g (expandEntry g s coord path (rest, v)).1
              (expandEntry g s coord path (rest, v)).2 ≤ bfsMeasure g rest v :=
            expandEntry_measure g s coord path (rest, v)
          exact ih fuel' _ _ (by omega) (by omega)

lemma getLast?_getD {l : List GridCoord} (h : l ≠ []) :
    l.getLast? = some (l.getD (l.length - 1) ⟨0, 0⟩) := by
  have hlt : l.length - 1 < l.length := by
    have := List.length_pos.mpr h
    omega
  rw [List.getLast?_eq_getElem?, List.getElem?_eq_getElem hlt, List.getD_eq_getElem l _ hlt]

lemma entryOK_coord {g : Grid} {s : String} {start coord : GridCoord} {path : WinPath}
    (h : entryOK g s start (coord, path)) :
    path.getD (path.length - 1) ⟨0, 0⟩ = coord ∧ coord.r = path.length - 1 := by
  obtain ⟨hne, hlast, _, hrows, _, _⟩ := h
  dsimp only at hne hlast hrows
  have h1 : path.getD (path.length - 1) ⟨0, 0⟩ = coord :=
    Option.some.inj ((getLast?_getD hne).symm.trans hlast)
  have h2 := hrows (path.length - 1) (by
    have := List.length_pos.mpr hne
    omega)
  exact ⟨h1, by rw [← h1]; exact h2⟩

lemma entryOK_extend {g : Grid} {s : String} {start coord : GridCoord} {path : WinPath}
    (h : entryOK g s start (coord, path)) {nc : GridCoord}
    (hr : nc.r = coord.r + 1) (hcb : nc.c < SYMBOLS_PER_REEL)
    (hcell : getCell g nc.r nc.c = some s)
    (hstep : (nc.c : Int) - (coord.c : Int) ∈ ([-1, 0, 1] : List Int)) :
    entryOK g s start (nc, path ++ [nc]) := by
  have hco := entryOK_coord h
  obtain ⟨hne, hlast, hhead, hrows, hcells, hsteps⟩ := h
  have hL : 1 ≤ path.length := List.length_pos.mpr hne
  have hncr : nc.r = path.length := by omega
  refine ⟨by simp, List.getLast?_concat path, ?_, ?_, ?_, ?_⟩
  · cases path with
    | nil => exact absurd rfl hne
    | cons hd tl =>
      simpa using hhead
  · intro i hi
    rw [List.length_append, List.length_singleton] at hi
    rcases Nat.lt_or_ge i path.length with hlt | hge
    · rw [List.getD_append _ _ _ _ hlt]
      exact hrows i hlt
    · have hieq : i = path.length := by omega
      subst hieq
      rw [List.getD_append_right _ _ _ _ (Nat.le_refl _), Nat.sub_self]
      exact hncr.symm ▸ rfl
  · intro x hx
    rcases List.mem_append.mp hx with hx | hx
    · exact hcells x hx
    · rw [List.mem_singleton] at hx
      subst hx
      exact ⟨hcb, hcell⟩
  · intro i hi
    rw [List.length_append, List.length_singleton] at hi
    rcases Nat.lt_or_ge (i + 1) path.length with hlt | hge
    · unfold stepDelta
      rw [List.getD_append _ _ _ _ hlt, List.getD_append _ _ _ _ (by omega)]
      exact hsteps i hlt
    · have hieq : i + 1 = path.length := by omega
      unfold stepDelta
      rw [hieq, List.getD_append_right _ _ _ _ (Nat.le_refl _), Nat.sub_self,
        List.getD_append _ _ _ _ (by omega)]
      have hgetD : path.getD (path.length - 1) ⟨0, 0⟩ = coord := hco.1
      rw [show path.length - 1 = i by omega] at hgetD
      rw [hgetD]
      exact hstep

lemma tryPush_inv {g : Grid} {s : String} {start coord : GridCoord} {path : WinPath}
    (hpop : entryOK g s start (coord, path))
    {st : List BfsEntry × Finset GridCoord} (hinv : queueInv g s start st.1 st.2)
    (dc : Int) (hdc : dc ∈ ([-1, 0, 1] : List Int)) :
    queueInv g s start (tryPush g s coord path st dc).1 (tryPush g s coord path st dc).2 ∧
    st.2 ⊆ (tryPush g s coord path st dc).2 ∧
    ∀ e ∈ (tryPush g s coord path st dc).1, e ∈ st.1 ∨ e.1 ∉ st.2 := by
  rcases tryPush_spec g s coord path st dc with heq | ⟨nc, hr, hcInt, hcb, hnotv, hcell, heq⟩
  · rw [heq]
    exact ⟨hinv, Finset.Subset.refl _, fun e he => Or.inl he⟩
  · rw [heq]
    obtain ⟨hnd, hvis, hok⟩ := hinv
    have hstep : (nc.c : Int) - (coord.c : Int) ∈ ([-1, 0, 1] : List Int) := by
      have hd : (nc.c : Int) - (coord.c : Int) = dc := by omega
      rw [hd]
      exact hdc
    refine ⟨⟨?_, ?_, ?_⟩, Finset.subset_insert _ _, ?_⟩
    · rw [List.map_append]
      rw [List.nodup_append]
      refine ⟨hnd, List.nodup_singleton _, ?_⟩
      intro a ha hb
      rw [List.mem_map] at ha
      obtain ⟨e, he, hae⟩ := ha
      simp only [List.map_cons, List.map_nil, List.mem_singleton] at hb
      exact hnotv (hb ▸ hae ▸ hvis e he)
    · intro e he
      rcases List.mem_append.mp he with he | he
      · exact Finset.mem_insert_of_mem (hvis e he)
      · rw [List.mem_singleton] at he
        subst he
        exact Finset.mem_insert_self _ _
    · intro e he
      rcases List.mem_append.mp he with he | he
      · exact hok e he
      · rw [List.mem_singleton] at he
        subst he
        exact entryOK_extend hpop hr hcb hcell hstep
    · intro e he
      rcases List.mem_append.mp he with he | he
      · exact Or.inl he
      · rw [List.mem_singleton] at he
        subst he
        exact Or.inr hnotv

lemma expandEntry_inv {g : Grid} {s : String} {start coord : GridCoord} {path : WinPath}
    (hpop : entryOK g s start (coord, path))
    (st : List BfsEntry × Finset GridCoord) (hinv : queueInv g s start st.1 st.2) :
    queueInv g s start (expandEntry g s coord path st).1 (expandEntry g s coord path st).2 ∧
    st.2 ⊆ (expandEntry g s coord path st).2 ∧
    ∀ e ∈ (expandEntry g s coord path st).1, e ∈ st.1 ∨ e.1 ∉ st.2 := by
  obtain ⟨hinv1, hsub1, hnew1⟩ := tryPush_inv hpop hinv (-1) (by decide)
  obtain ⟨hinv2, hsub2, hnew2⟩ := tryPush_inv hpop hinv1 0 (by decide)
  obtain ⟨hinv3, hsub3, hnew3⟩ := tryPush_inv hpop hinv2 1 (by decide)
  unfold expandEntry
  refine ⟨hinv3, fun a ha => hsub3 (hsub2 (hsub1 ha)), ?_⟩
  intro e he
  rcases hnew3 e he with he2 | hnot2
  · rcases hnew2 e he2 with he1 | hnot1
    · rcases hnew1 e he1 with he0 | hnot0
      · exact Or.inl he0
      · exact Or.inr hnot0
    · exact Or.inr fun hmem => hnot1 (hsub1 hmem)
  · exact Or.inr fun hmem => hnot2 (hsub2 (hsub1 hmem))

/-! ## BFS: master output lemmas -/

/-- Every recorded path of a run is a bottom-row-completed `entryOK` path, and
its last coordinate either is a queued coordinate or is unvisited so far. -/
lemma bfsLoop_out (g : Grid) (s : String) (start : GridCoord) :
    ∀ (fuel : Nat) (q : List BfsEntry) (v : Finset GridCoord), queueInv g s start q v →
      ∀ p ∈ bfsLoop g s fuel q v,
        (∃ x, p.getLast? = some x ∧ x.r = REEL_COUNT - 1 ∧ entryOK g s start (x, p)) ∧
        ((∃ e ∈ q, p.getLast? = some e.1) ∨ (∀ x, p.getLast? = some x → x ∉ v)) := by
  intro fuel
  induction fuel with
  | zero =>
    intro q v _ p hp
    simp [bfsLoop] at hp
  | succ fuel ih =>
    intro q v hinv p hp
    match q with
    | [] => simp [bfsLoop] at hp
    | (coord, path) :: rest =>
      obtain ⟨hnd, hvis, hok⟩ := hinv
      have hpop : entryOK g s start (coord, path) := hok _ (List.mem_cons_self _ _)
      have hinvRest : queueInv g s start rest v :=
        ⟨(List.nodup_cons.mp (by simpa using hnd)).2,
          fun e he => hvis e (List.mem_cons_of_mem _ he),
          fun e he => hok e (List.mem_cons_of_mem _ he)⟩
      simp only [bfsLoop] at hp
      by_cases hb : coord.r = REEL_COUNT - 1
      · rw [if_pos hb] at hp
        rcases List.mem_cons.mp hp with rfl | hp
        · exact ⟨⟨coord, hpop.2.1, hb, hpop⟩,
            Or.inl ⟨(coord, p), List.mem_cons_self _ _, hpop.2.1⟩⟩
        · obtain ⟨hout, hloc⟩ := ih rest v hinvRest p hp
          refine ⟨hout, ?_⟩
          rcases hloc with ⟨e, he, hpe⟩ | hnv
          · exact Or.inl ⟨e, List.mem_cons_of_mem _ he, hpe⟩
          · exact Or.inr hnv
      · rw [if_neg hb] at hp
        obtain ⟨hinv', hsub, hnew⟩ := expandEntry_inv hpop (rest, v) hinvRest
        obtain ⟨hout, hloc⟩ := ih _ _ hinv' p hp
        refine ⟨hout, ?_⟩
        rcases hloc with ⟨e, he, hpe⟩ | hnv'
        · rcases hnew e he with he' | hnot
          · exact Or.inl ⟨e, List.mem_cons_of_mem _ he', hpe⟩
          · refine Or.inr fun x hx => ?_
            rw [hpe] at hx
            cases hx
            exact hnot
        · exact Or.inr fun x hx hxv => hnv' x hx (hsub hxv)

/-- The last coordinates of the recorded paths of a run are pairwise distinct:
each bottom-row cell completes at most one path per run. -/
lemma bfsLoop_lasts_nodup (g : Grid) (s : String) (start : GridCoord) :
    ∀ (fuel : Nat) (q : List BfsEntry) (v : Finset GridCoord), queueInv g s start q v →
      ((bfsLoop g s fuel q v).map (fun p => p.getLast?)).Nodup := by
  intro fuel
  induction fuel with
  | zero =>
    intro q v _
    simp [bfsLoop]
  | succ fuel ih =>
    intro q v hinv
    match q with
    | [] => simp [bfsLoop]
    | (coord, path) :: rest =>
      obtain ⟨hnd, hvis, hok⟩ := hinv
      have hpop : entryOK g s start (coord, path) := hok _ (List.mem_cons_self _ _)
      have hinvRest : queueInv g s start rest v :=
        ⟨(List.nodup_cons.mp (by simpa using hnd)).2,
          fun e he => hvis e (List.mem_cons_of_mem _ he),
          fun e he => hok e (List.mem_cons_of_mem _ he)⟩
      simp only [bfsLoop]
      by_cases hb : coord.r = REEL_COUNT - 1
      · rw [if_pos hb]
        rw [List.map_cons, List.nodup_cons]
        refine ⟨?_, ih rest v hinvRest⟩
        intro hmem
        obtain ⟨p, hp, hpe⟩ := List.mem_map.mp hmem
        have hplast : p.getLast? = some coord := by
          rw [hpe]
          exact hpop.2.1
        obtain ⟨_, hloc⟩ := bfsLoop_out g s start fuel rest v hinvRest p hp
        rcases hloc with ⟨e, he, hpe'⟩ | hnv
        · have hec : e.1 = coord := Option.some.inj ((hpe'.symm.trans hplast))
          have : coord ∈ rest.map Prod.fst := hec ▸ List.mem_map_of_mem Prod.fst he
          rw [List.map_cons, List.nodup_cons] at hnd
          exact hnd.1 this
        · exact hnv coord hplast (hvis (coord, path) (List.mem_cons_self _ _))
      · rw [if_neg hb]
        exact ih _ _ (expandEntry_inv hpop (rest, v) hinvRest).1

/-! ## BFS: run-level corollaries -/

lemma queueInv_init {g : Grid} {s : String} {c : Nat} (hc : c < SYMBOLS_PER_REEL)
    (hcell : getCell g 0 c = some s) :
    queueInv g s ⟨0, c⟩ [(⟨0, c⟩, [⟨0, c⟩])] {⟨0, c⟩} := by
  refine ⟨by simp, by simp, ?_⟩
  intro e he
  rw [List.mem_singleton] at he
  subst he
  refine ⟨by simp, rfl, rfl, ?_, ?_, ?_⟩
  · intro i hi
    have hi0 : i = 0 := Nat.lt_one_iff.mp (by simpa using hi)
    subst hi0
    rfl
  · intro x hx
    rw [List.mem_singleton] at hx
    subst hx
    exact ⟨hc, hcell⟩
  · intro i hi
    simp at hi

lemma head?_getD {l : List GridCoord} (h : l ≠ []) :
    l.head? = some (l.getD 0 ⟨0, 0⟩) := by
  cases l with
  | nil => exact absurd rfl h
  | cons hd tl => rfl

/-- Shape facts about every recorded path of one BFS run. -/
lemma runAdjacency_shape {g : Grid} {s : String} {c : Nat} (hc : c < SYMBOLS_PER_REEL)
    (hcell : getCell g 0 c = some s) :
    ∀ p ∈ runAdjacency g s c,
      p.length = REEL_COUNT ∧
      (∀ i < p.length, (p.getD i ⟨0, 0⟩).r = i) ∧
      p.getD 0 ⟨0, 0⟩ = ⟨0, c⟩ ∧
      (∀ x ∈ p, x.c < SYMBOLS_PER_REEL ∧ getCell g x.r x.c = some s) ∧
      (∀ i, i + 1 < p.length → stepDelta p i ∈ ([-1, 0, 1] : List Int)) := by
  intro p hp
  obtain ⟨⟨x, hlast, hxr, hok⟩, _⟩ :=
    bfsLoop_out g s ⟨0, c⟩ (adjacencyFuel g) _ _ (queueInv_init hc hcell) p hp
  have hco := entryOK_coord hok
  obtain ⟨hne, _, hhead, hrows, hcells, hsteps⟩ := hok
  have hne' : p ≠ [] := hne
  have hL : 1 ≤ p.length := List.length_pos.mpr hne'
  have hlen : p.length = REEL_COUNT := by
    have h2 : x.r = p.length - 1 := hco.2
    rw [hxr] at h2
    norm_num [REEL_COUNT] at h2 ⊢
    omega
  refine ⟨hlen, hrows, ?_, hcells, hsteps⟩
  exact Option.some.inj ((head?_getD hne').symm.trans hhead)

/-- The last coordinates of one run's recorded paths are pairwise distinct. -/
lemma runAdjacency_lasts_nodup {g : Grid} {s : String} {c : Nat}
    (hc : c < SYMBOLS_PER_REEL) (hcell : getCell g 0 c = some s) :
    ((runAdjacency g s c).map (fun p => p.getLast?)).Nodup :=
  bfsLoop_lasts_nodup g s ⟨0, c⟩ (adjacencyFuel g) _ _ (queueInv_init hc hcell)

/-! ## A rows-indexed path is determined by its coordinate multiset -/

lemma eq_of_pathKey_eq {p q : WinPath}
    (hp : ∀ i < p.length, (p.getD i ⟨0, 0⟩).r = i)
    (hq : ∀ i < q.length, (q.getD i ⟨0, 0⟩).r = i)
    (hkey : pathKey p = pathKey q) : p = q := by
  have hlen : p.length = q.length := by
    have := congrArg Multiset.card hkey
    simpa [pathKey] using this
  apply List.ext_getElem hlen
  intro i h1 h2
  have hmem : p[i] ∈ q := by
    have hmp : p[i] ∈ p := List.getElem_mem h1
    exact mem_pathKey.mp (hkey ▸ mem_pathKey.mpr hmp)
  obtain ⟨j, hj, hji⟩ := List.mem_iff_getElem.mp hmem
  have hr1 : (p[i]).r = i := by
    have := hp i h1
    rwa [List.getD_eq_getElem _ _ h1] at this
  have hr2 : (q[j]).r = j := by
    have := hq j hj
    rwa [List.getD_eq_getElem _ _ hj] at this
  have hij : j = i := by
    rw [hji] at hr2
    omega
  subst hij
  exact hji.symm

/-! ## uniqueSymbols facts -/

lemma dedupFirstAux_subset : ∀ (l seen : List String), ∀ s ∈ dedupFirstAux l seen, s ∈ l
  | [], _ => by simp [dedupFirstAux]
  | x :: rest, seen => by
    unfold dedupFirstAux
    by_cases hx : x ∈ seen
    · rw [if_pos hx]
      intro t ht
      exact List.mem_cons_of_mem _ (dedupFirstAux_subset rest seen t ht)
    · rw [if_neg hx]
      intro t ht
      rcases List.mem_cons.mp ht with rfl | ht
      · exact List.mem_cons_self _ _
      · exact List.mem_cons_of_mem _ (dedupFirstAux_subset rest (x :: seen) t ht)

lemma dedupFirstAux_not_seen : ∀ (l seen : List String), ∀ s ∈ dedupFirstAux l seen, s ∉ seen
  | [], _ => by simp [dedupFirstAux]
  | x :: rest, seen => by
    unfold dedupFirstAux
    by_cases hx : x ∈ seen
    · rw [if_pos hx]
      exact dedupFirstAux_not_seen rest seen
    · rw [if_neg hx]
      intro t ht
      rcases List.mem_cons.mp ht with rfl | ht
      · exact hx
      · intro hts
        exact dedupFirstAux_not_seen rest (x :: seen) t ht (List.mem_cons_of_mem _ hts)

lemma dedupFirstAux_nodup : ∀ (l seen : List String), (dedupFirstAux l seen).Nodup
  | [], _ => by simp [dedupFirstAux]
  | x :: rest, seen => by
    unfold dedupFirstAux
    by_cases hx : x ∈ seen
    · rw [if_pos hx]
      exact dedupFirstAux_nodup rest seen
    · rw [if_neg hx]
      rw [List.nodup_cons]
      refine ⟨?_, dedupFirstAux_nodup rest (x :: seen)⟩
      intro hmem
      exact dedupFirstAux_not_seen rest (x :: seen) x hmem (List.mem_cons_self _ _)

lemma dedupFirst_subset : ∀ (l : List String), ∀ s ∈ dedupFirst l, s ∈ l :=
  fun l => dedupFirstAux_subset l []

lemma dedupFirst_nodup (l : List String) : (dedupFirst l).Nodup :=
  dedupFirstAux_nodup l []

lemma uniqueSymbols_nodup (g : Grid) : (uniqueSymbols g).Nodup :=
  dedupFirst_nodup _

lemma ne_empty_of_mem_uniqueSymbols {g : Grid} {s : String} (h : s ∈ uniqueSymbols g) :
    s ≠ "" := by
  have := dedupFirst_subset _ _ h
  rw [List.mem_filter] at this
  simpa using this.2

/-- Membership in the raw adjacency results. -/
lemma mem_findAdjacencyWins {g : Grid} {p : WinPath} :
    p ∈ findAdjacencyWins g ↔ ∃ s ∈ uniqueSymbols g, ∃ c, c < SYMBOLS_PER_REEL ∧
      getCell g 0 c = some s ∧ p ∈ runAdjacency g s c := by
  unfold findAdjacencyWins
  rw [List.mem_flatMap]
  constructor
  · rintro ⟨s, hs, hp⟩
    rw [List.mem_flatMap] at hp
    obtain ⟨c, hc, hp⟩ := hp
    by_cases hcell : getCell g 0 c = some s
    · rw [if_pos hcell] at hp
      exact ⟨s, hs, c, List.mem_range.mp hc, hcell, hp⟩
    · rw [if_neg hcell] at hp
      cases hp
  · rintro ⟨s, hs, c, hc, hcell, hp⟩
    refine ⟨s, hs, ?_⟩
    rw [List.mem_flatMap]
    exact ⟨c, List.mem_range.mpr hc, by rw [if_pos hcell]; exact hp⟩

/-! ## Raw adjacency results have pairwise distinct coordinate multisets -/

lemma pairwise_flatMap {α β : Type} {l : List α} {f : α → List β} {R : β → β → Prop}
    (hin : ∀ a ∈ l, (f a).Pairwise R)
    (hacross : l.Pairwise fun a b => ∀ x ∈ f a, ∀ y ∈ f b, R x y) :
    (l.flatMap f).Pairwise R := by
  have hdef : l.flatMap f = (l.map f).flatten := rfl
  rw [hdef, List.pairwise_flatten]
  constructor
  · intro l' hl'
    obtain ⟨a, ha, rfl⟩ := List.mem_map.mp hl'
    exact hin a ha
  · rw [List.pairwise_map]
    exact hacross

/-- Two recorded paths with the same coordinate multiset are the same path,
from the same start column and the same symbol. -/
lemma run_eq_of_key_eq {g : Grid} {s s' : String} {c c' : Nat} {p q : WinPath}
    (hc : c < SYMBOLS_PER_REEL) (hcell : getCell g 0 c = some s)
    (hc' : c' < SYMBOLS_PER_REEL) (hcell' : getCell g 0 c' = some s')
    (hp : p ∈ runAdjacency g s c) (hq : q ∈ runAdjacency g s' c')
    (hkey : pathKey p = pathKey q) : p = q ∧ c = c' ∧ s = s' := by
  have hsp := runAdjacency_shape hc hcell p hp
  have hsq := runAdjacency_shape hc' hcell' q hq
  have hpq : p = q := eq_of_pathKey_eq hsp.2.1 hsq.2.1 hkey
  subst hpq
  have hhead : (⟨0, c⟩ : GridCoord) = ⟨0, c'⟩ := by
    rw [← hsp.2.2.1, ← hsq.2.2.1]
  have hcc : c = c' := by
    cases hhead
    rfl
  subst hcc
  have hss : some s = some s' := by rw [← hcell, ← hcell']
  exact ⟨rfl, rfl, Option.some.inj hss⟩

/-- Within one run, recorded paths have pairwise distinct keys. -/
lemma runAdjacency_keys_pairwise {g : Grid} {s : String} {c : Nat}
    (hc : c < SYMBOLS_PER_REEL) (hcell : getCell g 0 c = some s) :
    (runAdjacency g s c).Pairwise fun p q => pathKey p ≠ pathKey q := by
  have hlasts : (runAdjacency g s c).Pairwise fun p q => p.getLast? ≠ q.getLast? :=
    List.pairwise_map.mp (runAdjacency_lasts_nodup hc hcell)
  refine hlasts.imp_of_mem ?_
  intro p q hp hq hne hkey
  obtain ⟨rfl, _, _⟩ := run_eq_of_key_eq hc hcell hc hcell hp hq hkey
  exact hne rfl

/-- All raw adjacency results have pairwise distinct keys. -/
lemma adjacency_raw_keys_nodup (g : Grid) :
    ((findAdjacencyWins g).map pathKey).Nodup := by
  apply List.Pairwise.map pathKey (fun a b h => h)
  unfold findAdjacencyWins
  apply pairwise_flatMap
  · intro s hs
    apply pairwise_flatMap
    · intro c hcm
      by_cases hcell : getCell g 0 c = some s
      · rw [if_pos hcell]
        exact runAdjacency_keys_pairwise (List.mem_range.mp hcm) hcell
      · rw [if_neg hcell]
        exact List.Pairwise.nil
    · refine ((List.pairwise_lt_range SYMBOLS_PER_REEL).imp_of_mem ?_)
      intro c c' hcm hcm' hlt x hx y hy hkey
      by_cases hcell : getCell g 0 c = some s
      · rw [if_pos hcell] at hx
        by_cases hcell' : getCell g 0 c' = some s
        · rw [if_pos hcell'] at hy
          obtain ⟨_, hcc, _⟩ := run_eq_of_key_eq (List.mem_range.mp hcm) hcell
            (List.mem_range.mp hcm') hcell' hx hy hkey
          omega
        · rw [if_neg hcell'] at hy
          cases hy
      · rw [if_neg hcell] at hx
        cases hx
  · have hnd : (uniqueSymbols g).Pairwise (· ≠ ·) := uniqueSymbols_nodup g
    refine hnd.imp_of_mem ?_
    intro s s' hs hs' hne x hx y hy hkey
    rw [List.mem_flatMap] at hx hy
    obtain ⟨c, hcm, hx⟩ := hx
    obtain ⟨c', hcm', hy⟩ := hy
    by_cases hcell : getCell g 0 c = some s
    · rw [if_pos hcell] at hx
      by_cases hcell' : getCell g 0 c' = some s'
      · rw [if_pos hcell'] at hy
        obtain ⟨_, _, hss⟩ := run_eq_of_key_eq (List.mem_range.mp hcm) hcell
          (List.mem_range.mp hcm') hcell' hx hy hkey
        exact hne hss
      · rw [if_neg hcell'] at hy
        cases hy
    · rw [if_neg hcell] at hx
      cases hx

/-! ## The code shape predicate vs the spec shape predicate -/

/-- On paths whose i-th point sits in row i (all BFS results), the source's
`isStraightOrDiagonalPath` decides exactly the spec's constant-column-delta
predicate. -/
lemma isStraight_iff_const {p : WinPath}
    (hrows : ∀ i < p.length, (p.getD i ⟨0, 0⟩).r = i) :
    isStraightOrDiagonalPath p = true ↔ constantColDelta p := by
  unfold isStraightOrDiagonalPath constantColDelta
  by_cases hlen : p.length ≤ 1
  · simp [hlen]
  · rw [if_neg hlen]
    push_neg at hlen
    rw [List.all_eq_true]
    constructor
    · intro hall
      right
      intro i hi
      rcases Nat.eq_zero_or_pos i with rfl | hpos
      · rfl
      · have hj := hall (i + 1) (List.mem_range'_1.mpr ⟨by omega, by omega⟩)
        rw [Bool.and_eq_true, beq_iff_eq, beq_iff_eq] at hj
        have := hj.2
        unfold stepDelta
        rw [show i + 1 - 1 = i by omega] at this
        exact this
    · intro hconst j hjm
      have hjb := List.mem_range'_1.mp hjm
      have hjlt : j < p.length := by omega
      rw [Bool.and_eq_true, beq_iff_eq, beq_iff_eq]
      constructor
      · have hr1 := hrows j hjlt
        have hr2 := hrows (j - 1) (by omega)
        rw [hr1, hr2]
        omega
      · rcases hconst with hc1 | hc2
        · omega
        · have := hc2 (j - 1) (by omega)
          unfold stepDelta at this
          rw [show j - 1 + 1 = j by omega] at this
          exact this

/-- Membership in the final adjacency collection. -/
lemma mem_computeWins_adjacency {g : Grid} {p : WinPath} (hv : isValidGrid g = true) :
    p ∈ (computeWins g).adjacency ↔
      p ∈ findAdjacencyWins g ∧ ¬(isStraightOrDiagonalPath p = true) := by
  rw [computeWins_valid g hv]
  have hnd : (((findAdjacencyWins g).filter
      fun q => !(isStraightOrDiagonalPath q)).map pathKey).Nodup :=
    ((adjacency_raw_keys_nodup g).sublist
      (List.Sublist.map pathKey (List.filter_sublist _)))
  show p ∈ dedupePaths _ ↔ _
  rw [dedupePaths_eq_self _ hnd, List.mem_filter]
  simp only [Bool.not_eq_true']
  constructor
  · rintro ⟨h1, h2⟩
    exact ⟨h1, by rw [h2]; exact Bool.false_ne_true⟩
  · rintro ⟨h1, h2⟩
    exact ⟨h1, by rwa [Bool.not_eq_true] at h2⟩

/-! ## Claim C8: each BFS run records at most 6 paths -/

/-- Claim C8: one BFS run (symbol `s`, start column `c`) records paths with
pairwise distinct ending coordinates, every ending coordinate in the bottom
row (row 3, column < 6); hence at most 6 completed paths per run — far below
the 3^(R-1) = 27 worst case. -/
theorem runAdjacency_at_most_six (g : Grid) (s : String) (c : Nat)
    (hc : c < SYMBOLS_PER_REEL) (hcell : getCell g 0 c = some s) :
    ((runAdjacency g s c).map (fun p => p.getLast?)).Nodup ∧
    (∀ p ∈ runAdjacency g s c, ∃ x, p.getLast? = some x ∧
      x.r = REEL_COUNT - 1 ∧ x.c < SYMBOLS_PER_REEL) ∧
    (runAdjacency g s c).length ≤ SYMBOLS_PER_REEL ∧
    (runAdjacency g s c).length < 3 ^ (REEL_COUNT - 1) := by
  have hnodup := runAdjacency_lasts_nodup hc hcell
  have hlast : ∀ p ∈ runAdjacency g s c, ∃ x, p.getLast? = some x ∧
      x.r = REEL_COUNT - 1 ∧ x.c < SYMBOLS_PER_REEL := by
    intro p hp
    obtain ⟨⟨x, hx1, hx2, hok⟩, _⟩ :=
      bfsLoop_out g s ⟨0, c⟩ (adjacencyFuel g) _ _ (queueInv_init hc hcell) p hp
    refine ⟨x, hx1, hx2, ?_⟩
    have hxm : x ∈ p := List.mem_of_mem_getLast? hx1
    exact (hok.2.2.2.2.1 x hxm).1
  have hlen6 : (runAdjacency g s c).length ≤ SYMBOLS_PER_REEL := by
    have hsub : ∀ y ∈ (runAdjacency g s c).map (fun p => p.getLast?),
        y ∈ (List.range SYMBOLS_PER_REEL).map
          (fun c' => some (⟨REEL_COUNT - 1, c'⟩ : GridCoord)) := by
      intro y hy
      obtain ⟨p, hp, rfl⟩ := List.mem_map.mp hy
      obtain ⟨x, hx1, hx2, hx3⟩ := hlast p hp
      rw [hx1]
      refine List.mem_map.mpr ⟨x.c, List.mem_range.mpr hx3, ?_⟩
      cases x with
      | mk xr xc =>
        simp only at hx2
        rw [hx2]
    have h1 : ((runAdjacency g s c).map (fun p => p.getLast?)).toFinset.card =
        (runAdjacency g s c).length := by
      rw [List.toFinset_card_of_nodup hnodup, List.length_map]
    have h2 : ((runAdjacency g s c).map fun p => p.getLast?).toFinset ⊆
        ((List.range SYMBOLS_PER_REEL).map
          fun c' => some (⟨REEL_COUNT - 1, c'⟩ : GridCoord)).toFinset :=
      fun y hy => List.mem_toFinset.mpr (hsub y (List.mem_toFinset.mp hy))
    have h3 := Finset.card_le_card h2
    have h4 : (((List.range SYMBOLS_PER_REEL).map
        fun c' => some (⟨REEL_COUNT - 1, c'⟩ : GridCoord)).toFinset).card ≤
          SYMBOLS_PER_REEL :=
      le_trans (List.toFinset_card_le _) (by simp)
    omega
  refine ⟨hnodup, hlast, hlen6, ?_⟩
  norm_num [REEL_COUNT, SYMBOLS_PER_REEL] at hlen6 ⊢
  omega

theorem runAdjacency_at_most_six_witness :
    ((0 : Nat) < SYMBOLS_PER_REEL ∧ getCell witnessGridC8 0 0 = some "A") ∧
    (((runAdjacency witnessGridC8 "A" 0).map (fun p => p.getLast?)).Nodup ∧
    (∀ p ∈ runAdjacency witnessGridC8 "A" 0, ∃ x, p.getLast? = some x ∧
      x.r = REEL_COUNT - 1 ∧ x.c < SYMBOLS_PER_REEL) ∧
    (runAdjacency witnessGridC8 "A" 0).length ≤ SYMBOLS_PER_REEL ∧
    (runAdjacency witnessGridC8 "A" 0).length < 3 ^ (REEL_COUNT - 1)) :=
  ⟨⟨by decide, by decide⟩,
    runAdjacency_at_most_six witnessGridC8 "A" 0 (by decide) (by decide)⟩

/-! ## Claim C5: the adjacency shape filter -/

/-- Claim C5: for a valid grid, an adjacency-search result is excluded from
the final adjacency collection exactly when it is
straight-or-constant-diagonal-shaped (at most one point, or one constant
column-delta across all consecutive pairs); hence no returned adjacency path
has a constant column-delta. -/
theorem adjacency_filter_exact (g : Grid) (hv : isValidGrid g = true) :
    (∀ p ∈ findAdjacencyWins g, (p ∉ (computeWins g).adjacency ↔ constantColDelta p)) ∧
    (∀ p ∈ (computeWins g).adjacency, ¬ constantColDelta p) := by
  have key : ∀ p ∈ findAdjacencyWins g,
      (isStraightOrDiagonalPath p = true ↔ constantColDelta p) := by
    intro p hp
    obtain ⟨s, hs, c, hc, hcell, hrun⟩ := mem_findAdjacencyWins.mp hp
    exact isStraight_iff_const (runAdjacency_shape hc hcell p hrun).2.1
  constructor
  · intro p hp
    constructor
    · intro hnotin
      by_contra hnc
      exact hnotin ((mem_computeWins_adjacency hv).mpr
        ⟨hp, fun hpred => hnc ((key p hp).mp hpred)⟩)
    · intro hconst hin
      exact ((mem_computeWins_adjacency hv).mp hin).2 ((key p hp).mpr hconst)
  · intro p hpin
    have hmem := (mem_computeWins_adjacency hv).mp hpin
    exact fun hconst => hmem.2 ((key p hmem.1).mpr hconst)

theorem adjacency_filter_exact_witness :
    isValidGrid witnessGridC5 = true ∧
    ((∀ p ∈ findAdjacencyWins witnessGridC5,
      (p ∉ (computeWins witnessGridC5).adjacency ↔ constantColDelta p)) ∧
    (∀ p ∈ (computeWins witnessGridC5).adjacency, ¬ constantColDelta p)) :=
  ⟨by decide, adjacency_filter_exact witnessGridC5 (by decide)⟩

/-! ## Canonical path computations (for C6 disjointness) -/

lemma length_diagPlusPath (c : Nat) : (diagPlusPath c).length = REEL_COUNT := by
  simp [diagPlusPath]

lemma length_diagMinusPath (c : Nat) : (diagMinusPath c).length = REEL_COUNT := by
  simp [diagMinusPath]

lemma getD_rowPath {r i : Nat} (hi : i < SYMBOLS_PER_REEL) :
    (rowPath r).getD i ⟨0, 0⟩ = ⟨r, i⟩ := by
  norm_num [SYMBOLS_PER_REEL] at hi
  interval_cases i <;> rfl

lemma getD_colPath {c i : Nat} (hi : i < REEL_COUNT) :
    (colPath c).getD i ⟨0, 0⟩ = ⟨i, c⟩ := by
  norm_num [REEL_COUNT] at hi
  interval_cases i <;> rfl

lemma getD_diagPlusPath {c i : Nat} (hi : i < REEL_COUNT) :
    (diagPlusPath c).getD i ⟨0, 0⟩ = ⟨i, c + i⟩ := by
  norm_num [REEL_COUNT] at hi
  interval_cases i <;> rfl

lemma getD_diagMinusPath {c i : Nat} (hi : i < REEL_COUNT) :
    (diagMinusPath c).getD i ⟨0, 0⟩ = ⟨i, c - i⟩ := by
  norm_num [REEL_COUNT] at hi
  interval_cases i <;> rfl

lemma rowsIdx_colPath (c : Nat) :
    ∀ i < (colPath c).length, ((colPath c).getD i ⟨0, 0⟩).r = i := by
  intro i hi
  rw [length_colPath] at hi
  rw [getD_colPath hi]

lemma rowsIdx_diagPlusPath (c : Nat) :
    ∀ i < (diagPlusPath c).length, ((diagPlusPath c).getD i ⟨0, 0⟩).r = i := by
  intro i hi
  rw [length_diagPlusPath] at hi
  rw [getD_diagPlusPath hi]

lemma rowsIdx_diagMinusPath (c : Nat) :
    ∀ i < (diagMinusPath c).length, ((diagMinusPath c).getD i ⟨0, 0⟩).r = i := by
  intro i hi
  rw [length_diagMinusPath] at hi
  rw [getD_diagMinusPath hi]

lemma stepDelta_eq (p : WinPath) (i : Nat) :
    stepDelta p i = ((p.getD (i + 1) ⟨0, 0⟩).c : Int) - ((p.getD i ⟨0, 0⟩).c : Int) := rfl

lemma stepDelta_colPath (c i : Nat) (hi : i < REEL_COUNT - 1) :
    stepDelta (colPath c) i = 0 := by
  unfold stepDelta
  rw [getD_colPath (by omega), getD_colPath (by omega)]
  simp

lemma stepDelta_diagPlusPath (c i : Nat) (hi : i < REEL_COUNT - 1) :
    stepDelta (diagPlusPath c) i = 1 := by
  unfold stepDelta
  rw [getD_diagPlusPath (by omega), getD_diagPlusPath (by omega)]
  dsimp only
  push_cast
  ring

lemma stepDelta_diagMinusPath (c i : Nat) (hc : REEL_COUNT - 1 ≤ c)
    (hi : i < REEL_COUNT - 1) : stepDelta (diagMinusPath c) i = -1 := by
  unfold stepDelta
  rw [getD_diagMinusPath (by omega), getD_diagMinusPath (by omega)]
  dsimp only
  norm_num [REEL_COUNT] at hc hi
  omega

lemma constantColDelta_colPath (c : Nat) : constantColDelta (colPath c) := by
  right
  intro i hi
  rw [length_colPath] at hi
  rw [stepDelta_colPath c i (by omega), stepDelta_colPath c 0 (by norm_num [REEL_COUNT])]

lemma constantColDelta_diagPlusPath (c : Nat) : constantColDelta (diagPlusPath c) := by
  right
  intro i hi
  rw [length_diagPlusPath] at hi
  rw [stepDelta_diagPlusPath c i (by omega), stepDelta_diagPlusPath c 0 (by norm_num [REEL_COUNT])]

lemma constantColDelta_diagMinusPath {c : Nat} (hc : REEL_COUNT - 1 ≤ c) :
    constantColDelta (diagMinusPath c) := by
  right
  intro i hi
  rw [length_diagMinusPath] at hi
  rw [stepDelta_diagMinusPath c i hc (by omega),
    stepDelta_diagMinusPath c 0 hc (by norm_num [REEL_COUNT])]

lemma pathKey_ne_of_length_ne {p q : WinPath} (h : p.length ≠ q.length) :
    pathKey p ≠ pathKey q := fun hkey => h (by
  have := congrArg Multiset.card hkey
  simpa [pathKey] using this)

/-! ## Membership decompositions of the three final collections -/

lemma straight_collection_eq (g : Grid) (hv : isValidGrid g = true) :
    (computeWins g).straight =
      ((List.range REEL_COUNT).filter fun r => decide (specRowWin g r)).map rowPath ++
      ((List.range SYMBOLS_PER_REEL).filter fun c => decide (specColWin g c)).map colPath := by
  rw [computeWins_valid g hv]
  show dedupePaths _ = _
  rw [dedupePaths_eq_self _ (straight_keys_nodup g hv), findHorizontalWins_eq g hv,
    findVerticalWins_eq g]

lemma mem_straight_cases {g : Grid} {p : WinPath} (hv : isValidGrid g = true)
    (hp : p ∈ (computeWins g).straight) :
    (∃ r, r < REEL_COUNT ∧ p = rowPath r) ∨ (∃ c, c < SYMBOLS_PER_REEL ∧ p = colPath c) := by
  rw [straight_collection_eq g hv] at hp
  rcases List.mem_append.mp hp with hp | hp
  · obtain ⟨r, hr, rfl⟩ := List.mem_map.mp hp
    exact Or.inl ⟨r, List.mem_range.mp (List.mem_of_mem_filter hr), rfl⟩
  · obtain ⟨c, hc, rfl⟩ := List.mem_map.mp hp
    exact Or.inr ⟨c, List.mem_range.mp (List.mem_of_mem_filter hc), rfl⟩

lemma mem_diagonal_cases {g : Grid} {p : WinPath} (hv : isValidGrid g = true)
    (hp : p ∈ (computeWins g).diagonal) :
    (∃ c, c < SYMBOLS_PER_REEL - REEL_COUNT + 1 ∧ p = diagPlusPath c) ∨
    (∃ c, REEL_COUNT - 1 ≤ c ∧ c < SYMBOLS_PER_REEL ∧ p = diagMinusPath c) := by
  have heq : (computeWins g).diagonal = findDiagonalWins g := by
    rw [computeWins_valid g hv]
    exact dedupePaths_eq_self _ (diagonal_keys_nodup g)
  rw [heq, findDiagonalWins_eq g] at hp
  rcases List.mem_append.mp hp with hp | hp
  · obtain ⟨c, hc, rfl⟩ := List.mem_map.mp hp
    exact Or.inl ⟨c, List.mem_range.mp (List.mem_of_mem_filter hc), rfl⟩
  · obtain ⟨c, hc, rfl⟩ := List.mem_map.mp hp
    have hcm := List.mem_reverse.mp (List.mem_of_mem_filter hc)
    have := List.mem_range'_1.mp hcm
    refine Or.inr ⟨c, this.1, ?_, rfl⟩
    have h2 := this.2
    norm_num [REEL_COUNT, SYMBOLS_PER_REEL] at h2 ⊢
    omega

lemma mem_adjacency_shape {g : Grid} {p : WinPath} (hv : isValidGrid g = true)
    (hp : p ∈ (computeWins g).adjacency) :
    p.length = REEL_COUNT ∧ (∀ i < p.length, (p.getD i ⟨0, 0⟩).r = i) ∧
    ¬ constantColDelta p := by
  obtain ⟨hraw, hnp⟩ := (mem_computeWins_adjacency hv).mp hp
  obtain ⟨s, hs, c, hc, hcell, hrun⟩ := mem_findAdjacencyWins.mp hraw
  have hsh := runAdjacency_shape hc hcell p hrun
  exact ⟨hsh.1, hsh.2.1, fun hconst => hnp ((isStraight_iff_const hsh.2.1).mpr hconst)⟩

/-! ## Cross-collection disjointness -/

lemma straight_diag_key_ne {g : Grid} (hv : isValidGrid g = true) :
    ∀ p ∈ (computeWins g).straight, ∀ q ∈ (computeWins g).diagonal,
      pathKey p ≠ pathKey q := by
  intro p hp q hq hkey
  rcases mem_straight_cases hv hp with ⟨r, hr, rfl⟩ | ⟨c0, hc0, rfl⟩
  · rcases mem_diagonal_cases hv hq with ⟨c, hc, rfl⟩ | ⟨c, hc1, hc2, rfl⟩
    · exact pathKey_ne_of_length_ne (by
        rw [length_rowPath, length_diagPlusPath]
        norm_num [REEL_COUNT, SYMBOLS_PER_REEL]) hkey
    · exact pathKey_ne_of_length_ne (by
        rw [length_rowPath, length_diagMinusPath]
        norm_num [REEL_COUNT, SYMBOLS_PER_REEL]) hkey
  · rcases mem_diagonal_cases hv hq with ⟨c, hc, rfl⟩ | ⟨c, hc1, hc2, rfl⟩
    · have heq := eq_of_pathKey_eq (rowsIdx_colPath c0) (rowsIdx_diagPlusPath c) hkey
      have hform : colPath c0 = [⟨0, c0⟩, ⟨1, c0⟩, ⟨2, c0⟩, ⟨3, c0⟩] := rfl
      have hform' : diagPlusPath c = [⟨0, c + 0⟩, ⟨1, c + 1⟩, ⟨2, c + 2⟩, ⟨3, c + 3⟩] := rfl
      rw [hform, hform'] at heq
      simp only [List.cons.injEq, GridCoord.mk.injEq] at heq
      omega
    · have heq := eq_of_pathKey_eq (rowsIdx_colPath c0) (rowsIdx_diagMinusPath c) hkey
      have hform : colPath c0 = [⟨0, c0⟩, ⟨1, c0⟩, ⟨2, c0⟩, ⟨3, c0⟩] := rfl
      have hform' : diagMinusPath c = [⟨0, c - 0⟩, ⟨1, c - 1⟩, ⟨2, c - 2⟩, ⟨3, c - 3⟩] := rfl
      rw [hform, hform'] at heq
      simp only [List.cons.injEq, GridCoord.mk.injEq] at heq
      have hcge : REEL_COUNT - 1 ≤ c := hc1
      norm_num [REEL_COUNT] at hcge
      omega

lemma straight_adj_key_ne {g : Grid} (hv : isValidGrid g = true) :
    ∀ p ∈ (computeWins g).straight, ∀ q ∈ (computeWins g).adjacency,
      pathKey p ≠ pathKey q := by
  intro p hp q hq hkey
  obtain ⟨hqlen, hqrows, hqnc⟩ := mem_adjacency_shape hv hq
  rcases mem_straight_cases hv hp with ⟨r, hr, rfl⟩ | ⟨c0, hc0, rfl⟩
  · exact pathKey_ne_of_length_ne (by
      rw [length_rowPath, hqlen]
      norm_num [REEL_COUNT, SYMBOLS_PER_REEL]) hkey
  · have heq := eq_of_pathKey_eq (rowsIdx_colPath c0) hqrows hkey
    exact hqnc (heq ▸ constantColDelta_colPath c0)

lemma diag_adj_key_ne {g : Grid} (hv : isValidGrid g = true) :
    ∀ p ∈ (computeWins g).diagonal, ∀ q ∈ (computeWins g).adjacency,
      pathKey p ≠ pathKey q := by
  intro p hp q hq hkey
  obtain ⟨hqlen, hqrows, hqnc⟩ := mem_adjacency_shape hv hq
  rcases mem_diagonal_cases hv hp with ⟨c, hc, rfl⟩ | ⟨c, hc1, hc2, rfl⟩
  · have heq := eq_of_pathKey_eq (rowsIdx_diagPlusPath c) hqrows hkey
    exact hqnc (heq ▸ constantColDelta_diagPlusPath c)
  · have heq := eq_of_pathKey_eq (rowsIdx_diagMinusPath c) hqrows hkey
    exact hqnc (heq ▸ constantColDelta_diagMinusPath hc1)

/-! ## Claim C6: disjointness and deduplication invariants -/

/-- Claim C6: for every valid 4x6 grid the three collections are pairwise
disjoint by coordinate multiset, within each collection no two paths share a
coordinate multiset, and each kept path is the first of its coordinate
multiset in the original generation order of its collection. -/
theorem collections_disjoint_deduped (g : Grid) (hv : isValidGrid g = true) :
    (∀ p ∈ (computeWins g).straight, ∀ q ∈ (computeWins g).diagonal,
      pathKey p ≠ pathKey q) ∧
    (∀ p ∈ (computeWins g).straight, ∀ q ∈ (computeWins g).adjacency,
      pathKey p ≠ pathKey q) ∧
    (∀ p ∈ (computeWins g).diagonal, ∀ q ∈ (computeWins g).adjacency,
      pathKey p ≠ pathKey q) ∧
    ((computeWins g).straight.map pathKey).Nodup ∧
    ((computeWins g).diagonal.map pathKey).Nodup ∧
    ((computeWins g).adjacency.map pathKey).Nodup ∧
    (∀ p ∈ (computeWins g).straight, ∃ l₁ l₂,
      findHorizontalWins g ++ findVerticalWins g = l₁ ++ p :: l₂ ∧
      ∀ q ∈ l₁, pathKey q ≠ pathKey p) ∧
    (∀ p ∈ (computeWins g).diagonal, ∃ l₁ l₂,
      findDiagonalWins g = l₁ ++ p :: l₂ ∧ ∀ q ∈ l₁, pathKey q ≠ pathKey p) ∧
    (∀ p ∈ (computeWins g).adjacency, ∃ l₁ l₂,
      (findAdjacencyWins g).filter (fun q => !(isStraightOrDiagonalPath q)) =
        l₁ ++ p :: l₂ ∧ ∀ q ∈ l₁, pathKey q ≠ pathKey p) := by
  refine ⟨straight_diag_key_ne hv, straight_adj_key_ne hv, diag_adj_key_ne hv,
    ?_, ?_, ?_, ?_, ?_, ?_⟩
  · rw [computeWins_valid g hv]
    exact dedupePaths_keys_nodup _
  · rw [computeWins_valid g hv]
    exact dedupePaths_keys_nodup _
  · rw [computeWins_valid g hv]
    exact dedupePaths_keys_nodup _
  · intro p hp
    rw [computeWins_valid g hv] at hp
    exact dedupePaths_first_occurrence _ p hp
  · intro p hp
    rw [computeWins_valid g hv] at hp
    exact dedupePaths_first_occurrence _ p hp
  · intro p hp
    rw [computeWins_valid g hv] at hp
    exact dedupePaths_first_occurrence _ p hp

theorem collections_disjoint_deduped_witness :
    isValidGrid witnessGridC6 = true ∧
    ((∀ p ∈ (computeWins witnessGridC6).straight, ∀ q ∈ (computeWins witnessGridC6).diagonal,
      pathKey p ≠ pathKey q) ∧
    (∀ p ∈ (computeWins witnessGridC6).straight, ∀ q ∈ (computeWins witnessGridC6).adjacency,
      pathKey p ≠ pathKey q) ∧
    (∀ p ∈ (computeWins witnessGridC6).diagonal, ∀ q ∈ (computeWins witnessGridC6).adjacency,
      pathKey p ≠ pathKey q) ∧
    ((computeWins witnessGridC6).straight.map pathKey).Nodup ∧
    ((computeWins witnessGridC6).diagonal.map pathKey).Nodup ∧
    ((computeWins witnessGridC6).adjacency.map pathKey).Nodup ∧
    (∀ p ∈ (computeWins witnessGridC6).straight, ∃ l₁ l₂,
      findHorizontalWins witnessGridC6 ++ findVerticalWins witnessGridC6 = l₁ ++ p :: l₂ ∧
      ∀ q ∈ l₁, pathKey q ≠ pathKey p) ∧
    (∀ p ∈ (computeWins witnessGridC6).diagonal, ∃ l₁ l₂,
      findDiagonalWins witnessGridC6 = l₁ ++ p :: l₂ ∧ ∀ q ∈ l₁, pathKey q ≠ pathKey p) ∧
    (∀ p ∈ (computeWins witnessGridC6).adjacency, ∃ l₁ l₂,
      (findAdjacencyWins witnessGridC6).filter (fun q => !(isStraightOrDiagonalPath q)) =
        l₁ ++ p :: l₂ ∧ ∀ q ∈ l₁, pathKey q ≠ pathKey p)) :=
  ⟨by decide, collections_disjoint_deduped witnessGridC6 (by decide)⟩

/-- Counterexample to claim C1: on the valid grid `cexGridC1`, `cexPathC1`
starts in row 0, ends in row 3, steps one row down with column deltas
+1, -1, 0 inside [0, 5], and all of its cells hold the non-empty symbol A,
yet it is not among the raw adjacency results: the per-run visited set
discards the second path through the shared cells (2,0), (3,0). -/
theorem adjacency_not_exhaustive_cex :
    isValidGrid cexGridC1 = true ∧
    specConnectingPath cexGridC1 "A" cexPathC1 ∧
    cexPathC1 ∉ findAdjacencyWins cexGridC1 := by decide

/-- Claim C1 (amended): every raw adjacency result is a top-to-bottom
connecting path for the non-empty symbol of its starting top-row cell —
the search is sound, but not exhaustive: paths sharing a cell with an
earlier-discovered path of the same run are dropped by the visited set
(at most one recorded path per bottom-row ending cell, see C8). -/
theorem adjacency_raw_sound (g : Grid) (hv : isValidGrid g = true) :
    ∀ p ∈ findAdjacencyWins g, ∃ s : String, specConnectingPath g s p ∧
      ∃ c, c < SYMBOLS_PER_REEL ∧ p.getD 0 ⟨0, 0⟩ = ⟨0, c⟩ ∧ getCell g 0 c = some s := by
  intro p hp
  obtain ⟨s, hs, c, hc, hcell, hrun⟩ := mem_findAdjacencyWins.mp hp
  obtain ⟨hlen, hrows, hhead, hcells, hsteps⟩ := runAdjacency_shape hc hcell p hrun
  have hne : p ≠ [] := by
    intro h
    rw [h] at hlen
    norm_num [REEL_COUNT] at hlen
  refine ⟨s, ⟨ne_empty_of_mem_uniqueSymbols hs, hne, ?_, ?_, ?_, ?_⟩, c, hc, hhead, hcell⟩
  · have := hrows 0 (by norm_num [hlen, REEL_COUNT])
    exact this
  · have := hrows (p.length - 1) (by norm_num [hlen, REEL_COUNT])
    rw [this, hlen]
  · intro i hi
    constructor
    · rw [hrows (i + 1) (by omega), hrows i (by omega)]
    · exact hsteps i (by omega)
  · intro x hx
    exact hcells x hx

theorem adjacency_raw_sound_witness :
    isValidGrid witnessGridC1 = true ∧
    (∀ p ∈ findAdjacencyWins witnessGridC1, ∃ s : String,
      specConnectingPath witnessGridC1 s p ∧
      ∃ c, c < SYMBOLS_PER_REEL ∧ p.getD 0 ⟨0, 0⟩ = ⟨0, c⟩ ∧
        getCell witnessGridC1 0 c = some s) :=
  ⟨by decide, adjacency_raw_sound witnessGridC1 (by decide)⟩

/-! ## The checked embedding agrees with the total one -/

lemma getCellE_some {g : Grid} {r : Nat} (hr : r < g.length) (c : Nat) :
    getCellE g r c = some (getCell g r c) := by
  obtain ⟨row, hrow⟩ : ∃ row, g.get? r = some row := ⟨_, List.get?_eq_get hr⟩
  unfold getCellE
  rw [hrow, Option.map_some', getCell_of_row hrow]

lemma horizRowsE_eq (g : Grid) : ∀ rs : List Nat, (∀ r ∈ rs, r < g.length) →
    horizRowsE g rs = some (rs.filterMap fun r =>
      match getCell g r 0 with
      | none => none
      | some firstSymbol =>
        if firstSymbol ≠ "" ∧ (g.getD r []).all (fun cell => cell == some firstSymbol) then
          some ((List.range SYMBOLS_PER_REEL).map fun c => (⟨r, c⟩ : GridCoord))
        else none) := by
  intro rs
  induction rs with
  | nil => intro _; rfl
  | cons r rs ih =>
    intro h
    have hr : r < g.length := h r (List.mem_cons_self _ _)
    obtain ⟨row, hrow⟩ : ∃ row, g.get? r = some row := ⟨_, List.get?_eq_get hr⟩
    unfold horizRowsE
    rw [hrow, Option.some_bind, ih (fun a ha => h a (List.mem_cons_of_mem _ ha)),
      Option.map_some', List.filterMap_cons, getCell_of_row hrow, getD_row hrow]
    rcases hfs : (row.get? 0).getD none with _ | fs
    · rfl
    · dsimp only
      by_cases hcond : fs ≠ "" ∧ (row.all fun cell => cell == some fs) = true
      · rw [if_pos hcond, if_pos hcond]
      · rw [if_neg hcond, if_neg hcond]

lemma findHorizontalWinsE_eq (g : Grid) (hv : isValidGrid g = true) :
    findHorizontalWinsE g = some (findHorizontalWins g) := by
  unfold findHorizontalWinsE findHorizontalWins
  apply horizRowsE_eq
  intro r hr
  have h1 := List.mem_range.mp hr
  have hlen := ((isValidGrid_iff g).mp hv).1
  norm_num [REEL_COUNT] at h1 hlen
  omega

lemma matchRowsE_eq (g : Grid) (fs : String) (colFn : Nat → Nat) :
    ∀ rs : List Nat, (∀ r ∈ rs, r < g.length) →
      matchRowsE g fs colFn rs = some (rs.all fun r => getCell g r (colFn r) == some fs) := by
  intro rs
  induction rs with
  | nil => intro _; rfl
  | cons r rs ih =>
    intro h
    have hr : r < g.length := h r (List.mem_cons_self _ _)
    unfold matchRowsE
    rw [getCellE_some hr, Option.some_bind, List.all_cons]
    by_cases hb : (getCell g r (colFn r) == some fs) = true
    · rw [if_pos hb, ih (fun a ha => h a (List.mem_cons_of_mem _ ha)), hb, Bool.true_and]
    · rw [if_neg hb]
      rw [Bool.not_eq_true] at hb
      rw [hb, Bool.false_and]

lemma colCheckE_eq (g : Grid) (f : Nat → Nat → Nat) (c : Nat)
    (h0 : 0 < g.length) (hrows : ∀ r ∈ List.range' 1 (REEL_COUNT - 1), r < g.length) :
    colCheckE g f c = some (match getCell g 0 c with
      | none => none
      | some fs =>
        if fs ≠ "" ∧ ((List.range' 1 (REEL_COUNT - 1)).all
            fun r => getCell g r (f c r) == some fs) then
          some ((List.range REEL_COUNT).map fun r => (⟨r, f c r⟩ : GridCoord))
        else none) := by
  unfold colCheckE
  rw [getCellE_some h0, Option.some_bind]
  rcases h00 : getCell g 0 c with _ | fs
  · rfl
  · dsimp only
    by_cases hfs : fs = ""
    · subst hfs
      rw [if_pos rfl, if_neg (by intro hcond; exact hcond.1 rfl)]
    · rw [if_neg hfs, matchRowsE_eq g fs (f c) _ hrows, Option.map_some']
      by_cases hall : ((List.range' 1 (REEL_COUNT - 1)).all
          fun r => getCell g r (f c r) == some fs) = true
      · rw [if_pos hall, if_pos ⟨hfs, hall⟩]
      · rw [if_neg hall, if_neg (fun hcond => hall hcond.2)]

lemma colsE_eq (g : Grid) (f : Nat → Nat → Nat) (body : Nat → Option WinPath) :
    ∀ cs : List Nat, (∀ c ∈ cs, colCheckE g f c = some (body c)) →
      colsE g f cs = some (cs.filterMap body) := by
  intro cs
  induction cs with
  | nil => intro _; rfl
  | cons c cs ih =>
    intro h
    unfold colsE
    rw [h c (List.mem_cons_self _ _), Option.some_bind,
      ih (fun a ha => h a (List.mem_cons_of_mem _ ha)), Option.map_some',
      List.filterMap_cons]
    cases hb : body c <;> rfl

lemma length_of_valid {g : Grid} (hv : isValidGrid g = true) : g.length = 4 := by
  have := ((isValidGrid_iff g).mp hv).1
  norm_num [REEL_COUNT] at this
  exact this

lemma range'_rows_lt {g : Grid} (hv : isValidGrid g = true) :
    ∀ r ∈ List.range' 1 (REEL_COUNT - 1), r < g.length := by
  intro r hr
  have h1 := List.mem_range'_1.mp hr
  have h2 := length_of_valid hv
  norm_num [REEL_COUNT] at h1
  omega

lemma findVerticalWinsE_eq (g : Grid) (hv : isValidGrid g = true) :
    findVerticalWinsE g = some (findVerticalWins g) := by
  have hlen := length_of_valid hv
  unfold findVerticalWinsE findVerticalWins
  apply colsE_eq
  intro c _
  exact colCheckE_eq g (fun c _ => c) c (by omega) (range'_rows_lt hv)

lemma findDiagonalWinsE_eq (g : Grid) (hv : isValidGrid g = true) :
    findDiagonalWinsE g = some (findDiagonalWins g) := by
  have hlen := length_of_valid hv
  unfold findDiagonalWinsE findDiagonalWins
  rw [colsE_eq g (fun c r => c + r) _ _
      (fun c _ => colCheckE_eq g (fun c r => c + r) c (by omega) (range'_rows_lt hv)),
    Option.some_bind,
    colsE_eq g (fun c r => c - r) _ _
      (fun c _ => colCheckE_eq g (fun c r => c - r) c (by omega) (range'_rows_lt hv)),
    Option.map_some']

lemma tryPushE_eq {g : Grid} {s : String} {coord : GridCoord} {path : WinPath}
    {st : List BfsEntry × Finset GridCoord} {dc : Int}
    (hr1 : coord.r + 1 < g.length) :
    tryPushE g s coord path st dc = some (tryPush g s coord path st dc) := by
  unfold tryPushE tryPush
  by_cases hg : 0 ≤ (coord.c : Int) + dc ∧ (coord.c : Int) + dc < (SYMBOLS_PER_REEL : Int) ∧
      (⟨coord.r + 1, ((coord.c : Int) + dc).toNat⟩ : GridCoord) ∉ st.2
  · rw [if_pos hg, getCellE_some hr1, Option.map_some']
    by_cases hcell : getCell g (coord.r + 1) ((coord.c : Int) + dc).toNat = some s
    · rw [if_pos hcell, if_pos ⟨hg.1, hg.2.1, hg.2.2, hcell⟩]
    · rw [if_neg hcell, if_neg (fun hcond => hcell hcond.2.2.2)]
  · rw [if_neg hg, if_neg (fun hcond => hg ⟨hcond.1, hcond.2.1, hcond.2.2.1⟩)]

lemma expandEntryE_eq {g : Grid} {s : String} {coord : GridCoord} {path : WinPath}
    {st : List BfsEntry × Finset GridCoord} (hr1 : coord.r + 1 < g.length) :
    expandEntryE g s coord path st = some (expandEntry g s coord path st) := by
  unfold expandEntryE expandEntry
  rw [tryPushE_eq hr1, Option.some_bind, tryPushE_eq hr1, Option.some_bind, tryPushE_eq hr1]

lemma tryPush_rowBound {g : Grid} {s : String} {coord : GridCoord} {path : WinPath}
    {st : List BfsEntry × Finset GridCoord} {dc : Int} {k : Nat}
    (hq : ∀ e ∈ st.1, e.1.r ≤ k) (hcoord : coord.r + 1 ≤ k) :
    ∀ e ∈ (tryPush g s coord path st dc).1, e.1.r ≤ k := by
  rcases tryPush_spec g s coord path st dc with heq | ⟨nc, hr, _, _, _, _, heq⟩
  · rw [heq]
    exact hq
  · rw [heq]
    intro e he
    rcases List.mem_append.mp he with he | he
    · exact hq e he
    · rw [List.mem_singleton] at he
      subst he
      show nc.r ≤ k
      rw [hr]
      exact hcoord

lemma expandEntry_rowBound {g : Grid} {s : String} {coord : GridCoord} {path : WinPath}
    {st : List BfsEntry × Finset GridCoord} {k : Nat}
    (hq : ∀ e ∈ st.1, e.1.r ≤ k) (hcoord : coord.r + 1 ≤ k) :
    ∀ e ∈ (expandEntry g s coord path st).1, e.1.r ≤ k := by
  unfold expandEntry
  exact tryPush_rowBound (tryPush_rowBound (tryPush_rowBound hq hcoord) hcoord) hcoord

lemma bfsLoopE_eq (g : Grid) (s : String) (hlen : g.length = 4) :
    ∀ (fuel : Nat) (q : List BfsEntry) (v : Finset GridCoord),
      (∀ e ∈ q, e.1.r ≤ REEL_COUNT - 1) →
      bfsLoopE g s fuel q v = some (bfsLoop g s fuel q v) := by
  intro fuel
  induction fuel with
  | zero => intro q v _; rfl
  | succ fuel ih =>
    intro q v hq
    match q with
    | [] => rfl
    | (coord, path) :: rest =>
      have hcr : coord.r ≤ REEL_COUNT - 1 := hq _ (List.mem_cons_self _ _)
      have hrest : ∀ e ∈ rest, e.1.r ≤ REEL_COUNT - 1 :=
        fun e he => hq e (List.mem_cons_of_mem _ he)
      simp only [bfsLoopE, bfsLoop]
      by_cases hb : coord.r = REEL_COUNT - 1
      · rw [if_pos hb, if_pos hb, ih rest v hrest, Option.map_some']
      · rw [if_neg hb, if_neg hb]
        have hr1 : coord.r + 1 < g.length := by
          rw [hlen]
          norm_num [REEL_COUNT] at hcr hb
          omega
        rw [expandEntryE_eq hr1, Option.some_bind]
        apply ih
        apply expandEntry_rowBound hrest
        norm_num [REEL_COUNT] at hcr hb ⊢
        omega

lemma runAdjacencyE_eq {g : Grid} {s : String} (hlen : g.length = 4) (c : Nat) :
    runAdjacencyE g s c = some (runAdjacency g s c) := by
  unfold runAdjacencyE runAdjacency
  apply bfsLoopE_eq g s hlen
  intro e he
  rw [List.mem_singleton] at he
  subst he
  norm_num [REEL_COUNT]

lemma adjacencyColsE_eq (g : Grid) (s : String) (hlen : g.length = 4) :
    ∀ cs : List Nat, adjacencyColsE g s cs =
      some (cs.flatMap fun c =>
        if getCell g 0 c = some s then runAdjacency g s c else []) := by
  intro cs
  induction cs with
  | nil => rfl
  | cons c cs ih =>
    unfold adjacencyColsE
    rw [getCellE_some (by omega : 0 < g.length), Option.some_bind, List.flatMap_cons]
    by_cases hcell : getCell g 0 c = some s
    · rw [if_pos hcell, if_pos hcell, runAdjacencyE_eq hlen c, Option.some_bind, ih,
        Option.map_some']
    · rw [if_neg hcell, if_neg hcell, Option.some_bind, ih, Option.map_some']

lemma adjacencySymbolsE_eq (g : Grid) (hlen : g.length = 4) :
    ∀ ss : List String, adjacencySymbolsE g ss =
      some (ss.flatMap fun symbol =>
        (List.range SYMBOLS_PER_REEL).flatMap fun c =>
          if getCell g 0 c = some symbol then runAdjacency g symbol c else []) := by
  intro ss
  induction ss with
  | nil => rfl
  | cons s ss ih =>
    unfold adjacencySymbolsE
    rw [adjacencyColsE_eq g s hlen, Option.some_bind, ih, Option.map_some',
      List.flatMap_cons]

lemma findAdjacencyWinsE_eq (g : Grid) (hv : isValidGrid g = true) :
    findAdjacencyWinsE g = some (findAdjacencyWins g) := by
  unfold findAdjacencyWinsE findAdjacencyWins
  exact adjacencySymbolsE_eq g (length_of_valid hv) _

/-- No read of the engine ever indexes a missing row: the checked embedding
returns exactly the total embedding's result, on every input. -/
lemma computeWinsE_eq (g : Grid) : computeWinsE g = some (computeWins g) := by
  by_cases hv : isValidGrid g
  · unfold computeWinsE
    rw [if_pos hv, findHorizontalWinsE_eq g hv, Option.some_bind,
      findVerticalWinsE_eq g hv, Option.some_bind, findDiagonalWinsE_eq g hv,
      Option.some_bind, findAdjacencyWinsE_eq g hv, Option.map_some',
      computeWins_valid g hv]
  · unfold computeWinsE computeWins
    rw [if_neg hv, if_neg hv]

lemma flatMap_congr_mem {α β : Type} {l : List α} {f f' : α → List β}
    (h : ∀ a ∈ l, f a = f' a) : l.flatMap f = l.flatMap f' := by
  induction l with
  | nil => rfl
  | cons x xs ih =>
    rw [List.flatMap_cons, List.flatMap_cons, h x (List.mem_cons_self _ _),
      ih fun a ha => h a (List.mem_cons_of_mem _ ha)]

lemma init_measure_le (g : Grid) (s : String) (c : Nat) :
    bfsMeasure g [(⟨0, c⟩, [⟨0, c⟩])] {⟨0, c⟩} ≤ adjacencyFuel g := by
  unfold bfsMeasure adjacencyFuel
  have hsub : (gridUniverse g \ {(⟨0, c⟩ : GridCoord)}) ⊆ gridUniverse g :=
    Finset.sdiff_subset
  have := Finset.card_le_card hsub
  simp only [List.length_singleton]
  omega

/-- The BFS fuel is irrelevant beyond `adjacencyFuel`: every run halts because
its queue empties, never because the fuel runs out. -/
lemma findAdjacencyWinsFueled_eq (g : Grid) (fuel : Nat)
    (hfuel : adjacencyFuel g ≤ fuel) :
    findAdjacencyWinsFueled g fuel = findAdjacencyWins g := by
  unfold findAdjacencyWinsFueled findAdjacencyWins
  apply flatMap_congr_mem
  intro s _
  apply flatMap_congr_mem
  intro c _
  by_cases hcell : getCell g 0 c = some s
  · rw [if_pos hcell, if_pos hcell]
    unfold runAdjacency
    exact bfsLoop_fuel_irrelevant g s fuel (adjacencyFuel g) _ _
      (le_trans (init_measure_le g s c) hfuel) (init_measure_le g s c)
  · rw [if_neg hcell, if_neg hcell]

/-! ## Claim C10: totality and in-bounds access -/

/-- Claim C10: `computeWins` is total on arbitrary inputs. The checked
embedding — in which indexing a missing row is an error, as in the source
language — returns `some (computeWins g)` for every grid, ragged or not: no
scan ever indexes a missing row, thanks to the up-front validation and the
bounds checks. And the BFS terminates by queue exhaustion: enlarging the fuel
beyond `adjacencyFuel g` (which bounds the visited-set-limited queue) never
changes the adjacency results. -/
theorem computeWins_total_safe (g : Grid) (fuel : Nat)
    (hfuel : adjacencyFuel g ≤ fuel) :
    computeWinsE g = some (computeWins g) ∧
    findAdjacencyWinsFueled g fuel = findAdjacencyWins g :=
  ⟨computeWinsE_eq g, findAdjacencyWinsFueled_eq g fuel hfuel⟩

theorem computeWins_total_safe_witness :
    adjacencyFuel witnessGridC10 ≤ 100 ∧
    (computeWinsE witnessGridC10 = some (computeWins witnessGridC10) ∧
    findAdjacencyWinsFueled witnessGridC10 100 = findAdjacencyWins witnessGridC10) :=
  ⟨by decide, computeWins_total_safe witnessGridC10 100 (by decide)⟩
